import Mathlib

/-!
Shallow embedding of the audio transcription pipeline (`src/main.py`).

Paths and file contents are modelled as lists of characters (`Str`).
The filesystem is a pair of association lists: regular files (with their
decoded content) and directories.  The speech-recognition service is an
oracle mapping the global call index to an outcome.  Python exceptions
that the source catches are modelled inside each function; exceptions the
source does not catch surface as `Except.error`.
-/

set_option maxHeartbeats 1600000

namespace AudioPipeline

abbrev Str := List Char

/-! ### Decimal rendering (model of Python `str` on a non-negative int) -/

def digitChar (n : Nat) : Char := Char.ofNat (48 + n % 10)

def natDecF : Nat → Nat → Str
  | 0, _ => []
  | f + 1, n =>
    if n < 10 then [digitChar n]
    else natDecF f (n / 10) ++ [digitChar (n % 10)]

def natDecimal (n : Nat) : Str := natDecF (n + 1) n

/-! ### Python `str.replace` (left-to-right, non-overlapping).
The recursion is bounded by the length of the subject string; the
wrapper `pyReplaceL` supplies exactly that bound. -/

def pyReplaceF (pat rep : Str) : Nat → Str → Str
  | _, [] => []
  | 0, _ :: _ => []
  | f + 1, c :: cs =>
    if pat ≠ [] ∧ pat.isPrefixOf (c :: cs) = true then
      rep ++ pyReplaceF pat rep f ((c :: cs).drop pat.length)
    else c :: pyReplaceF pat rep f cs

def pyReplaceL (s pat rep : Str) : Str := pyReplaceF pat rep s.length s

/-- Whether `pat` occurs as a contiguous substring of `s`. -/
def containsSub (s pat : Str) : Bool :=
  match s with
  | [] => pat.isEmpty
  | _ :: cs => pat.isPrefixOf s || containsSub cs pat

/-- Model of Python `str.endswith`. -/
def endsWithL (s pat : Str) : Bool := pat.isSuffixOf s

/-- Model of Python `range(start, stop, step)` for a positive step.  The
recursion is bounded by `stop - start`, which the wrapper supplies. -/
def pyRangeF (stop step : Nat) : Nat → Nat → List Nat
  | 0, _ => []
  | f + 1, start =>
    if 0 < step ∧ start < stop then start :: pyRangeF stop step f (start + step)
    else []

def pyRange (start stop step : Nat) : List Nat := pyRangeF stop step (stop - start) start

/-- Model of `os.path.splitext(name)[0]` for a name without separators:
the part before the last dot, unless every character before that dot is
itself a dot. -/
def splitextBase (name : Str) : Str :=
  let tailLen := (name.reverse.takeWhile (fun c => c ≠ '.')).length
  if tailLen = name.length then name          -- no dot at all
  else
    let stem := name.take (name.length - tailLen - 1)
    if stem.any (fun c => c ≠ '.') then stem else name

/-- Model of `os.path.join` for relative paths without trailing slashes. -/
def pathJoin (a b : Str) : Str := a ++ '/' :: b

/-! ### Filesystem model -/

/-- Content of a regular file: decodable audio (with its duration in
milliseconds) or raw text. -/
inductive FileData where
  | audio (durationMs : Nat)
  | text (s : Str)
deriving DecidableEq, Repr

structure FS where
  files : List (Str × FileData)
  dirs : List Str
deriving DecidableEq, Repr

def FS.fileAt (fs : FS) (p : Str) : Option FileData :=
  (fs.files.find? (fun kv => decide (kv.1 = p))).map (·.2)

def FS.isDir (fs : FS) (p : Str) : Bool := fs.dirs.any (fun d => decide (d = p))

def FS.pathExists (fs : FS) (p : Str) : Bool := (fs.fileAt p).isSome || fs.isDir p

/-- The name of `q` relative to directory `d`, when `q` is a direct child of `d`. -/
def childName (d q : Str) : Option Str :=
  if (d ++ ['/']).isPrefixOf q then
    let n := q.drop (d.length + 1)
    if n ≠ [] ∧ '/' ∉ n then some n else none
  else none

/-- Model of `os.listdir`: the names of direct children of `d`, or `none`
(an `OSError`) when `d` is not a directory. -/
def FS.listdir (fs : FS) (d : Str) : Option (List Str) :=
  if fs.isDir d then some ((fs.files.map (·.1) ++ fs.dirs).filterMap (childName d))
  else none

/-- Writing (or overwriting) a regular file. -/
def FS.writeFile (fs : FS) (p : Str) (data : FileData) : FS :=
  { fs with files := (p, data) :: fs.files.filter (fun kv => decide (kv.1 ≠ p)) }

/-- The directory prefixes `os.makedirs` creates: every prefix of `p`
ending at a separator, and `p` itself. -/
def dirPrefixes (p : Str) : List Str :=
  (List.range p.length).filterMap
    (fun i => if p.get? i = some '/' then some (p.take i) else none) ++ [p]

def FS.makedirs (fs : FS) (p : Str) : FS := { fs with dirs := dirPrefixes p ++ fs.dirs }

/-! ### Ledger (Python dict from base name to transcription or None) -/

abbrev Ledger := List (Str × Option Str)

def ledgerMem (l : Ledger) (k : Str) : Bool := l.any (fun kv => decide (kv.1 = k))

def ledgerGet (l : Ledger) (k : Str) : Option (Option Str) :=
  (l.find? (fun kv => decide (kv.1 = k))).map (·.2)

/-- Python dict assignment `l[k] = v`: replace in place when the key is
present, otherwise append. -/
def ledgerInsert (l : Ledger) (k : Str) (v : Option Str) : Ledger :=
  if ledgerMem l k then l.map (fun kv => if kv.1 = k then (k, v) else kv)
  else l ++ [(k, v)]

/-! ### JSON serialization of the ledger
(model of `json.dump(..., ensure_ascii=False, indent=4)` and `json.load`
restricted to the shape the program uses: an object mapping strings to
strings or null). -/

def hexDigitChar (n : Nat) : Char :=
  if n < 10 then Char.ofNat (48 + n) else Char.ofNat (87 + n)

/-- `json.dump`'s escaping of a single character with `ensure_ascii=False`:
backslash, quote and control characters are escaped, everything else
(including non-ASCII) passes verbatim. -/
def escapeChar (c : Char) : Str :=
  if c = '"' then ['\\', '"']
  else if c = '\\' then ['\\', '\\']
  else if c = '\n' then ['\\', 'n']
  else if c = '\r' then ['\\', 'r']
  else if c = '\t' then ['\\', 't']
  else if c.toNat = 8 then ['\\', 'b']
  else if c.toNat = 12 then ['\\', 'f']
  else if c.toNat < 32 then
    ['\\', 'u', '0', '0', hexDigitChar (c.toNat / 16), hexDigitChar (c.toNat % 16)]
  else [c]

def escapeList (s : Str) : Str :=
  match s with
  | [] => []
  | c :: t => escapeChar c ++ escapeList t

def encodeString (s : Str) : Str := '"' :: escapeList s ++ ['"']

def renderValue (v : Option Str) : Str :=
  match v with
  | none => "null".data
  | some t => encodeString t

def renderEntryLine (kv : Str × Option Str) : Str :=
  "    ".data ++ encodeString kv.1 ++ ':' :: ' ' :: renderValue kv.2

def renderEntries (m : Ledger) : Str :=
  match m with
  | [] => []
  | [kv] => renderEntryLine kv
  | kv :: rest => renderEntryLine kv ++ ',' :: '\n' :: renderEntries rest

def renderLedger (m : Ledger) : Str :=
  match m with
  | [] => ['\x7b', '\x7d']
  | _ => '\x7b' :: '\n' :: renderEntries m ++ '\n' :: ['\x7d']

def isWsChar (c : Char) : Bool := c = ' ' || c = '\n' || c = '\t' || c = '\r'

def skipWs (s : Str) : Str :=
  match s with
  | [] => []
  | c :: t => if isWsChar c then skipWs t else c :: t

def hexVal (c : Char) : Option Nat :=
  if 48 ≤ c.toNat ∧ c.toNat ≤ 57 then some (c.toNat - 48)
  else if 97 ≤ c.toNat ∧ c.toNat ≤ 102 then some (c.toNat - 87)
  else if 65 ≤ c.toNat ∧ c.toNat ≤ 70 then some (c.toNat - 55)
  else none

def unescapeChar (c : Char) : Option Char :=
  if c = '"' then some '"'
  else if c = '\\' then some '\\'
  else if c = '/' then some '/'
  else if c = 'n' then some '\n'
  else if c = 'r' then some '\r'
  else if c = 't' then some '\t'
  else if c = 'b' then some (Char.ofNat 8)
  else if c = 'f' then some (Char.ofNat 12)
  else none

/-- Parse the body of a JSON string after the opening quote (recursion
bounded by the input length, supplied by the wrapper `parseStringBody`).
Returns the decoded characters and the input remaining after the closing
quote. -/
def parseSBF : Nat → Str → Option (Str × Str)
  | _, [] => none
  | 0, _ :: _ => none
  | f + 1, c :: rest =>
    if c = '"' then some ([], rest)
    else if c = '\\' then
      match rest with
      | [] => none
      | e :: rest' =>
        if e = 'u' then
          match rest' with
          | h1 :: h2 :: h3 :: h4 :: rest'' => do
            let a ← hexVal h1
            let b ← hexVal h2
            let c2 ← hexVal h3
            let d ← hexVal h4
            let (t, r) ← parseSBF f rest''
            pure (Char.ofNat (((a * 16 + b) * 16 + c2) * 16 + d) :: t, r)
          | _ => none
        else do
          let c2 ← unescapeChar e
          let (t, r) ← parseSBF f rest'
          pure (c2 :: t, r)
    else do
      let (t, r) ← parseSBF f rest
      pure (c :: t, r)

def parseStringBody (s : Str) : Option (Str × Str) := parseSBF s.length s

def parseValue (s : Str) : Option (Option Str × Str) :=
  match s with
  | 'n' :: 'u' :: 'l' :: 'l' :: rest => some (none, rest)
  | '"' :: rest => (parseStringBody rest).map (fun p => (some p.1, p.2))
  | _ => none

/-- Parse a non-empty comma-separated entry sequence followed by the
closing brace.  `fuel` bounds the number of entries. -/
def parseEntries (fuel : Nat) (s : Str) : Option (Ledger × Str) :=
  match fuel with
  | 0 => none
  | fuel + 1 =>
    match skipWs s with
    | '"' :: rest => do
      let (k, r1) ← parseStringBody rest
      match skipWs r1 with
      | ':' :: r2 => do
        let (v, r3) ← parseValue (skipWs r2)
        match skipWs r3 with
        | ',' :: r4 => do
          let (m, r5) ← parseEntries fuel r4
          pure ((k, v) :: m, r5)
        | '\x7d' :: r4 => pure ([(k, v)], r4)
        | _ => none
      | _ => none
    | _ => none

/-- Model of `json.load` on the ledger shape: a JSON object whose values
are strings or null, with nothing but whitespace after it. -/
def parseLedger (s : Str) : Option Ledger :=
  match skipWs s with
  | [] => none
  | c :: rest =>
    if c = '\x7b' then
      match skipWs rest with
      | [] => none
      | c2 :: rest2 =>
        if c2 = '\x7d' then (if skipWs rest2 = [] then some [] else none)
        else
          match parseEntries (c2 :: rest2).length (c2 :: rest2) with
          | some (m, rest3) => if skipWs rest3 = [] then some m else none
          | none => none
    else none

/-! ### General JSON values

`json.load` accepts any JSON document, not only ledger-shaped objects.  A
valid non-object document (array, string, number, boolean, null, or
Python's default `NaN` / `Infinity` / `-Infinity`) is returned as-is and
flows into `process_folder`, where the membership tests and the item
assignment then behave very differently from a dict. -/

inductive JVal where
  | jnull
  | jbool (b : Bool)
  | jnum (raw : Str)
  | jstr (s : Str)
  | jarr (elems : List JVal)
  | jobj (fields : List (Str × JVal))

def isDigitCh (c : Char) : Bool := 48 ≤ c.toNat && c.toNat ≤ 57

def takeDigits : Str → Str × Str
  | [] => ([], [])
  | c :: cs =>
    if isDigitCh c then
      let (ds, r) := takeDigits cs
      (c :: ds, r)
    else ([], c :: cs)

/-- The integer part of a JSON number: `0`, or a nonzero digit followed by
digits (no leading zeros). -/
def parseIntRaw : Str → Option (Str × Str)
  | [] => none
  | c :: cs =>
    if c = '0' then some (['0'], cs)
    else if isDigitCh c then
      let (ds, r) := takeDigits cs
      some (c :: ds, r)
    else none

/-- The optional fraction part `.digits`. -/
def parseFracRaw : Str → Option (Str × Str)
  | '.' :: cs =>
    match takeDigits cs with
    | ([], _) => none
    | (ds, r) => some ('.' :: ds, r)
  | s => some ([], s)

/-- The optional exponent part `[eE][+-]?digits`. -/
def parseExpRaw : Str → Option (Str × Str)
  | [] => some ([], [])
  | c :: cs =>
    if c = 'e' ∨ c = 'E' then
      match cs with
      | [] => none
      | d :: cs2 =>
        if d = '+' ∨ d = '-' then
          match takeDigits cs2 with
          | ([], _) => none
          | (ds, r) => some (c :: d :: ds, r)
        else
          match takeDigits (d :: cs2) with
          | ([], _) => none
          | (ds, r) => some (c :: ds, r)
    else some ([], c :: cs)

/-- A JSON number lexeme, kept as its source literal. -/
def parseNumberRaw (s : Str) : Option (Str × Str) :=
  match s with
  | '-' :: cs =>
    match parseIntRaw cs with
    | none => none
    | some (ip, r1) =>
      match parseFracRaw r1 with
      | none => none
      | some (fp, r2) =>
        match parseExpRaw r2 with
        | none => none
        | some (ep, r3) => some ('-' :: (ip ++ fp ++ ep), r3)
  | _ =>
    match parseIntRaw s with
    | none => none
    | some (ip, r1) =>
      match parseFracRaw r1 with
      | none => none
      | some (fp, r2) =>
        match parseExpRaw r2 with
        | none => none
        | some (ep, r3) => some (ip ++ fp ++ ep, r3)

/-- One JSON value (`mode = 0`), the item list of a non-empty array after
the opening bracket (`mode = 1`, wrapped in `jarr`), or the field list of a
non-empty object after the opening brace (`mode = 2`, wrapped in `jobj`).
The three parsers are mutually recursive; folding them into one function
structurally recursive on an explicit fuel keeps every step reducible by
the kernel.  Fuel drops by one on each call and at least one input
character is consumed every two calls. -/
def parseJV : Nat → Nat → Str → Option (JVal × Str)
  | 0, _, _ => none
  | fuel + 1, mode, s =>
    if mode = 0 then
      match skipWs s with
      | [] => none
      | c :: rest =>
        if c = '"' then
          match parseStringBody rest with
          | some (t, r) => some (.jstr t, r)
          | none => none
        else if c = '[' then
          match skipWs rest with
          | ']' :: r => some (.jarr [], r)
          | _ => parseJV fuel 1 rest
        else if c = '\x7b' then
          match skipWs rest with
          | '\x7d' :: r => some (.jobj [], r)
          | _ => parseJV fuel 2 rest
        else if c = 't' then
          if rest.take 3 = "rue".data then some (.jbool true, rest.drop 3) else none
        else if c = 'f' then
          if rest.take 4 = "alse".data then some (.jbool false, rest.drop 4) else none
        else if c = 'n' then
          if rest.take 3 = "ull".data then some (.jnull, rest.drop 3) else none
        else if c = 'N' then
          if rest.take 2 = "aN".data then some (.jnum "NaN".data, rest.drop 2) else none
        else if c = 'I' then
          if rest.take 7 = "nfinity".data then some (.jnum "Infinity".data, rest.drop 7)
          else none
        else if c = '-' ∧ rest.take 8 = "Infinity".data then
          some (.jnum "-Infinity".data, rest.drop 8)
        else
          match parseNumberRaw (c :: rest) with
          | some (raw, r) => some (.jnum raw, r)
          | none => none
    else if mode = 1 then
      match parseJV fuel 0 s with
      | some (v, r) =>
        match skipWs r with
        | ',' :: r2 =>
          match parseJV fuel 1 r2 with
          | some (.jarr vs, r3) => some (.jarr (v :: vs), r3)
          | _ => none
        | ']' :: r2 => some (.jarr [v], r2)
        | _ => none
      | none => none
    else
      match skipWs s with
      | '"' :: r =>
        match parseStringBody r with
        | some (key, r2) =>
          match skipWs r2 with
          | ':' :: r3 =>
            match parseJV fuel 0 r3 with
            | some (v, r4) =>
              match skipWs r4 with
              | ',' :: r5 =>
                match parseJV fuel 2 r5 with
                | some (.jobj fs2, r6) => some (.jobj ((key, v) :: fs2), r6)
                | _ => none
              | '\x7d' :: r5 => some (.jobj [(key, v)], r5)
              | _ => none
            | none => none
          | _ => none
        | none => none
      | _ => none

/-- Model of `json.load` on a whole document: one JSON value followed by
nothing but whitespace. -/
def parseJsonValue (s : Str) : Option JVal :=
  match parseJV (2 * s.length + 2) 0 s with
  | some (v, rest) => if skipWs rest = [] then some v else none
  | none => none

def spacesN (n : Nat) : Str := List.replicate n ' '

mutual
/-- `json.dump(v, ensure_ascii=False, indent=4)` at nesting depth `d`.
Numbers keep their source literal; Python re-serializes the parsed number,
which coincides with the literal for canonical integer literals and the
named float constants (nothing below depends on the remaining float
formatting). -/
def renderJV (d : Nat) : JVal → Str
  | .jnull => "null".data
  | .jbool true => "true".data
  | .jbool false => "false".data
  | .jnum raw => raw
  | .jstr t => encodeString t
  | .jarr [] => "[]".data
  | .jarr (e :: es) =>
    '[' :: '\n' :: (renderJVItems (d + 1) e es ++ '\n' :: (spacesN (4 * d) ++ [']']))
  | .jobj [] => ['\x7b', '\x7d']
  | .jobj (f :: fs2) =>
    '\x7b' :: '\n' :: (renderJVFields (d + 1) f fs2 ++ '\n' :: (spacesN (4 * d) ++ ['\x7d']))
termination_by v => sizeOf v

def renderJVItems (d : Nat) (e : JVal) : List JVal → Str
  | [] => spacesN (4 * d) ++ renderJV d e
  | e2 :: es => spacesN (4 * d) ++ renderJV d e ++ ',' :: '\n' :: renderJVItems d e2 es
termination_by l => sizeOf e + sizeOf l

def renderJVFields (d : Nat) : Str × JVal → List (Str × JVal) → Str
  | (key, v), [] => spacesN (4 * d) ++ (encodeString key ++ ':' :: ' ' :: renderJV d v)
  | (key, v), f2 :: fs2 =>
    spacesN (4 * d) ++ (encodeString key ++ ':' :: ' ' :: renderJV d v)
      ++ ',' :: '\n' :: renderJVFields d f2 fs2
termination_by f l => sizeOf f + sizeOf l
end

/-- Python's `base in value` on a `json.load` result: key membership for a
dict, element equality for a list (only string elements can equal a
string), substring test for a string, and a `TypeError` (`none`) for a
number, boolean, or `None`. -/
def pyIn (v : JVal) (b : Str) : Option Bool :=
  match v with
  | .jobj fields => some (fields.any (fun kv => decide (kv.1 = b)))
  | .jarr es => some (es.any (fun e => match e with | .jstr t => decide (t = b) | _ => false))
  | .jstr t => some (containsSub t b)
  | _ => none

/-! ### Pipeline state, collaborators, and the embedded program -/

/-- Outcome of one `recognizer.recognize_google` call. -/
inductive RecResult where
  | success (t : Str)
  | requestError
  | unknownValue
deriving DecidableEq, Repr

/-- Behaviour of the external recognition service: outcome of the n-th
recognition call of the whole run. -/
structure Env where
  oracle : Nat → RecResult

/-- Trace events: entering the conversion `try` block for a base name,
calling `transcribe_audio` for a base name, and one recognition call. -/
inductive Event where
  | convertAttempt (base : Str)
  | transcribeAttempt (base : Str)
  | recognizerCall (path : Str)
deriving DecidableEq, Repr

/-- Uncaught Python exceptions. -/
inductive PyErr where
  | listdirError (p : Str)      -- os.listdir on a missing path or a file
  | audioOpenError (p : Str)    -- sr.AudioFile on a path that is not a readable wav
  | typeError                   -- `in` / item assignment on a non-dict json.load result
deriving DecidableEq, Repr

structure St where
  fs : FS
  calls : Nat
  events : List Event
deriving DecidableEq, Repr

deriving instance DecidableEq for Except

instance : Inhabited St := ⟨⟨⟨[], []⟩, 0, []⟩⟩

/-- What `load_existing_transcriptions` (main.py:6-16) hands back to
`process_folder`: a ledger-shaped object (`dict`), a valid non-object JSON
value the caller then chokes on (`nonDict`), or the `\x7b\x7d` default
(`empty`) after a missing file or a caught read/parse error.  A valid JSON
object whose values are not strings or null is also classified `empty`;
such objects behave as dicts downstream and are outside this model. -/
inductive LoadOutcome where
  | dict (m : Ledger)
  | nonDict (v : JVal)
  | empty

/-- `load_existing_transcriptions` (main.py:6-16): fails soft on a missing
file or an unparsable one, but passes any successfully parsed value
through. -/
def loadOutcome (fs : FS) (jsonFile : Str) : LoadOutcome :=
  if fs.pathExists jsonFile then
    match fs.fileAt jsonFile with
    | some (.text s) =>
      match parseLedger s with
      | some m => .dict m
      | none =>
        match parseJsonValue s with
        | some (.jobj _) => .empty    -- object with non-ledger values: out of model scope
        | some v => .nonDict v        -- valid non-object JSON: returned as-is
        | none => .empty              -- json.JSONDecodeError, caught: return {}
    | _ => .empty                     -- IsADirectoryError / decode error, caught: return {}
  else .empty

/-- The loaded value as the ledger mapping: the mapping itself in the
`dict` case and the empty mapping otherwise (the only cases in which the
run treats the value as a mapping). -/
def load_existing_transcriptions (fs : FS) (jsonFile : Str) : Ledger :=
  match loadOutcome fs jsonFile with
  | .dict m => m
  | _ => []

/-- `save_transcriptions_to_json` (main.py:18-27). -/
def save_transcriptions_to_json (st : St) (transcriptions : Ledger) (jsonFile : Str) : St :=
  { st with fs := st.fs.writeFile jsonFile (.text (renderLedger transcriptions)) }

/-- Body of the per-file loop of `convert_aac_to_wav` (main.py:43-69). -/
def convertLoop (st : St) (input out : Str) (transcriptions : Ledger) :
    List Str → St
  | [] => st
  | name :: rest =>
    let base := splitextBase name
    let fileOut := pathJoin out base
    if ledgerMem transcriptions base then convertLoop st input out transcriptions rest
    else
      let st1 := if ¬ st.fs.pathExists fileOut then { st with fs := st.fs.makedirs fileOut }
                 else st
      let outPath := pathJoin fileOut (base ++ ".wav".data)
      if st1.fs.pathExists outPath then convertLoop st1 input out transcriptions rest
      else
        let st2 := { st1 with events := .convertAttempt base :: st1.events }
        let st3 := match st2.fs.fileAt (pathJoin input name) with
                   | some (.audio d) => { st2 with fs := st2.fs.writeFile outPath (.audio d) }
                   | _ => st2        -- decode failure, caught: logged and skipped
        convertLoop st3 input out transcriptions rest

/-- `convert_aac_to_wav` (main.py:29-69). `os.listdir` on an existing
non-directory raises and is not caught. -/
def convert_aac_to_wav (st : St) (input out : Str) (transcriptions : Ledger) :
    Except PyErr St :=
  if ¬ st.fs.pathExists input then .ok st
  else
    match st.fs.listdir input with
    | none => .error (.listdirError input)
    | some names =>
      let aacs := names.filter (fun n => endsWithL n ".aac".data)
      if aacs.isEmpty then .ok st
      else .ok (convertLoop st input out transcriptions aacs)

/-- `file_path.replace(".wav", "_standardized.wav")` (main.py:78). -/
def standardizedPathOf (filePath : Str) : Str :=
  pyReplaceL filePath ".wav".data "_standardized.wav".data

/-- `standardize_audio` (main.py:71-83): on success returns the path of
the standardized copy, on any failure returns the original path. -/
def standardize_audio (st : St) (filePath : Str) : Str × St :=
  match st.fs.fileAt filePath with
  | some (.audio d) =>
    (standardizedPathOf filePath,
      { st with fs := st.fs.writeFile (standardizedPathOf filePath) (.audio d) })
  | _ => (filePath, st)    -- caught: logged, original path returned

/-- The path of chunk number `i / L` (main.py:94). -/
def chunkPathOf (filePath : Str) (chunkLen i : Nat) : Str :=
  pyReplaceL filePath ".wav".data [] ++ "_chunk".data ++ natDecimal (i / chunkLen)
    ++ ".wav".data

/-- The export loop of `split_audio` (main.py:92-96): `i` walks
`range(0, len(audio), chunk_length_ms)`; `audio[i:i+L]` has duration
`min L (d - i)`. -/
def splitGo (filePath : Str) (chunkLen d : Nat) (fs : FS) : List Nat → List Str × FS
  | [] => ([], fs)
  | i :: rest =>
    let cp := chunkPathOf filePath chunkLen i
    let fs1 := fs.writeFile cp (.audio (min chunkLen (d - i)))
    let (cs, fs2) := splitGo filePath chunkLen d fs1 rest
    (cp :: cs, fs2)

/-- `split_audio` (main.py:85-100): on any failure (including a
non-positive chunk length, which makes `range` raise) returns the
original path as the single chunk. -/
def split_audio (st : St) (filePath : Str) (chunkLengthMs : Nat := 60000) :
    List Str × St :=
  match st.fs.fileAt filePath with
  | some (.audio d) =>
    if chunkLengthMs = 0 then ([filePath], st)
    else
      let (cs, fs') := splitGo filePath chunkLengthMs d st.fs (pyRange 0 d chunkLengthMs)
      (cs, { st with fs := fs' })
  | _ => ([filePath], st)  -- caught: logged, [file_path] returned

/-- The retry loop of `transcribe_with_retry` (main.py:107-120), counted
by the number of attempts remaining (`retries - attempts`).
`sr.AudioFile` on a path that is not a readable audio file raises an
exception that the two `except` clauses do not catch. -/
def transcribeRetryGo (env : Env) (filePath : Str) : St → Nat → Except PyErr (Option Str × St)
  | st, 0 => .ok (none, st)
  | st, remaining + 1 =>
    match st.fs.fileAt filePath with
    | some (.audio _) =>
      let st1 := { st with calls := st.calls + 1,
                           events := .recognizerCall filePath :: st.events }
      match env.oracle st.calls with
      | .success t => .ok (some t, st1)
      | .unknownValue => .ok (none, st1)      -- not retried: return None
      | .requestError => transcribeRetryGo env filePath st1 remaining
    | _ => .error (.audioOpenError filePath)

/-- `transcribe_with_retry` (main.py:102-120). -/
def transcribe_with_retry (env : Env) (st : St) (filePath : Str) (retries : Nat := 3) :
    Except PyErr (Option Str × St) :=
  transcribeRetryGo env filePath st retries

/-- The chunk loop of `transcribe_audio` (main.py:130-133): falsy results
(None or the empty string) are dropped. -/
def chunkLoop (env : Env) (st : St) : List Str → Except PyErr (List Str × St)
  | [] => .ok ([], st)
  | c :: rest => do
    let (r, st1) ← transcribe_with_retry env st c
    let (ts, st2) ← chunkLoop env st1 rest
    match r with
    | some t => if t = [] then .ok (ts, st2) else .ok (t :: ts, st2)
    | none => .ok (ts, st2)

/-- `transcribe_audio` (main.py:122-135). -/
def transcribe_audio (env : Env) (st : St) (filePath : Str) :
    Except PyErr (Option Str × St) := do
  let (standardizedPath, st1) := standardize_audio st filePath
  let (chunks, st2) := split_audio st1 standardizedPath
  let (ts, st3) ← chunkLoop env st2 chunks
  match ts with
  | [] => .ok (none, st3)
  | _ => .ok (some (List.intercalate [' '] ts), st3)

/-- The inner per-wav-file loop of `process_folder` (main.py:155-165). -/
def wavLoop (env : Env) (st : St) (transcriptions : Ledger) (folderPath : Str) :
    List Str → Except PyErr (Ledger × St)
  | [] => .ok (transcriptions, st)
  | name :: rest =>
    let base := splitextBase name
    if ledgerMem transcriptions base then wavLoop env st transcriptions folderPath rest
    else do
      let st1 := { st with events := .transcribeAttempt base :: st.events }
      let (r, st2) ← transcribe_audio env st1 (pathJoin folderPath name)
      wavLoop env st2 (ledgerInsert transcriptions base r) folderPath rest

/-- The per-subfolder loop of `process_folder` (main.py:149-165). -/
def folderLoop (env : Env) (st : St) (transcriptions : Ledger) (out : Str) :
    List Str → Except PyErr (Ledger × St)
  | [] => .ok (transcriptions, st)
  | fname :: rest =>
    let folderPath := pathJoin out fname
    if ¬ st.fs.isDir folderPath then folderLoop env st transcriptions out rest
    else do
      let wavs := ((st.fs.listdir folderPath).getD []).filter
        (fun n => endsWithL n ".wav".data)
      let (tr1, st1) ← wavLoop env st transcriptions folderPath wavs
      folderLoop env st1 tr1 out rest

/-- `process_folder` (main.py:137-168) when the loaded value is a mapping.
The `os.listdir(output_folder)` call at line 149 is not guarded: a missing
(or non-directory) output folder raises. -/
def processDict (env : Env) (st : St) (input out outputJson : Str)
    (transcriptions : Ledger) : Except PyErr St := do
  let st1 ← convert_aac_to_wav st input out transcriptions
  match st1.fs.listdir out with
  | none => .error (.listdirError out)
  | some names => do
    let (tr1, st2) ← folderLoop env st1 transcriptions out names
    .ok (save_transcriptions_to_json st2 tr1 outputJson)

/-- The per-file loop of `convert_aac_to_wav` (main.py:43-69) when
`transcriptions` is a non-dict `json.load` result.  The membership test at
line 48 sits before the per-file `try`: on a number/boolean/None it raises
an uncaught `TypeError`; on a list or string it behaves as `pyIn` says. -/
def convertLoopNd (st : St) (input out : Str) (v : JVal) :
    List Str → Except PyErr St
  | [] => .ok st
  | name :: rest =>
    let base := splitextBase name
    let fileOut := pathJoin out base
    match pyIn v base with
    | none => .error .typeError
    | some true => convertLoopNd st input out v rest
    | some false =>
      let st1 := if ¬ st.fs.pathExists fileOut then { st with fs := st.fs.makedirs fileOut }
                 else st
      let outPath := pathJoin fileOut (base ++ ".wav".data)
      if st1.fs.pathExists outPath then convertLoopNd st1 input out v rest
      else
        let st2 := { st1 with events := .convertAttempt base :: st1.events }
        let st3 := match st2.fs.fileAt (pathJoin input name) with
                   | some (.audio d) => { st2 with fs := st2.fs.writeFile outPath (.audio d) }
                   | _ => st2
        convertLoopNd st3 input out v rest

/-- `convert_aac_to_wav` (main.py:29-69) on a non-dict loaded value. -/
def convert_aac_to_wav_nd (st : St) (input out : Str) (v : JVal) :
    Except PyErr St :=
  if ¬ st.fs.pathExists input then .ok st
  else
    match st.fs.listdir input with
    | none => .error (.listdirError input)
    | some names =>
      let aacs := names.filter (fun n => endsWithL n ".aac".data)
      if aacs.isEmpty then .ok st
      else convertLoopNd st input out v aacs

/-- The inner per-wav-file loop (main.py:155-165) on a non-dict loaded
value: the `in` test at line 159 raises on numbers/booleans/None; for the
first name not "in" the value, `transcribe_audio` runs and then the item
assignment at line 165 raises an uncaught `TypeError` (no non-dict JSON
value supports item assignment by a string). -/
def wavLoopNd (env : Env) (st : St) (v : JVal) (folderPath : Str) :
    List Str → Except PyErr St
  | [] => .ok st
  | name :: rest =>
    let base := splitextBase name
    match pyIn v base with
    | none => .error .typeError
    | some true => wavLoopNd env st v folderPath rest
    | some false => do
      let st1 := { st with events := .transcribeAttempt base :: st.events }
      let _ ← transcribe_audio env st1 (pathJoin folderPath name)
      .error .typeError

/-- The per-subfolder loop (main.py:149-165) on a non-dict loaded value. -/
def folderLoopNd (env : Env) (st : St) (v : JVal) (out : Str) :
    List Str → Except PyErr St
  | [] => .ok st
  | fname :: rest =>
    let folderPath := pathJoin out fname
    if ¬ st.fs.isDir folderPath then folderLoopNd env st v out rest
    else do
      let wavs := ((st.fs.listdir folderPath).getD []).filter
        (fun n => endsWithL n ".wav".data)
      let st1 ← wavLoopNd env st v folderPath wavs
      folderLoopNd env st1 v out rest

/-- `process_folder` (main.py:137-168) on a non-dict loaded value: the run
completes only if every base name tests as a member; `json.dump` at line
168 then writes the value back. -/
def processNonDict (env : Env) (st : St) (input out outputJson : Str)
    (v : JVal) : Except PyErr St := do
  let st1 ← convert_aac_to_wav_nd st input out v
  match st1.fs.listdir out with
  | none => .error (.listdirError out)
  | some names => do
    let st2 ← folderLoopNd env st1 v out names
    .ok { st2 with fs := st2.fs.writeFile outputJson (.text (renderJV 0 v)) }

/-- `process_folder` (main.py:137-168): the value `json.load` produced
determines how the rest of the run treats `transcriptions`. -/
def process_folder (env : Env) (st : St) (input out outputJson : Str) :
    Except PyErr St :=
  match loadOutcome st.fs outputJson with
  | .dict transcriptions => processDict env st input out outputJson transcriptions
  | .empty => processDict env st input out outputJson []
  | .nonDict v => processNonDict env st input out outputJson v

/-! ### Basic filesystem lemmas -/

theorem fileAt_writeFile_self (fs : FS) (p : Str) (d : FileData) :
    (fs.writeFile p d).fileAt p = some d := by
  simp [FS.writeFile, FS.fileAt]

theorem fileAt_writeFile_ne (fs : FS) (p q : Str) (d : FileData) (h : q ≠ p) :
    (fs.writeFile p d).fileAt q = fs.fileAt q := by
  have key : ∀ l : List (Str × FileData),
      List.find? (fun kv => decide (kv.1 = q)) (List.filter (fun kv => decide (kv.1 ≠ p)) l)
        = List.find? (fun kv => decide (kv.1 = q)) l := by
    intro l
    induction l with
    | nil => rfl
    | cons kv rest ih =>
      by_cases hkv : kv.1 = p
      · rw [List.filter_cons_of_neg (by simp [hkv]),
          List.find?_cons_of_neg _ (by simp [hkv, Ne.symm h]), ih]
      · rw [List.filter_cons_of_pos (by simpa using hkv)]
        by_cases hq : kv.1 = q
        · rw [List.find?_cons_of_pos _ (by simp [hq]), List.find?_cons_of_pos _ (by simp [hq])]
        · rw [List.find?_cons_of_neg _ (by simp [hq]), List.find?_cons_of_neg _ (by simp [hq]),
            ih]
  simp only [FS.writeFile, FS.fileAt, List.find?_cons]
  rw [show (decide (p = q)) = false by simp [Ne.symm h]]
  rw [key fs.files]

/-! ### Unfolding lemmas for the recursive functions -/

theorem pyRangeF_nil (stop step start : Nat) (f : Nat) (h : ¬ start < stop) :
    pyRangeF stop step f start = [] := by
  cases f with
  | zero => rfl
  | succ f => simp [pyRangeF, h]

theorem pyRangeF_fuel (stop step : Nat) :
    ∀ f g start, stop - start ≤ f → stop - start ≤ g →
      pyRangeF stop step f start = pyRangeF stop step g start := by
  intro f
  induction f with
  | zero =>
    intro g start hf _
    rw [pyRangeF_nil _ _ _ 0 (by omega), pyRangeF_nil _ _ _ g (by omega)]
  | succ f ih =>
    intro g start hf hg
    by_cases hlt : start < stop
    · cases g with
      | zero => omega
      | succ g =>
        simp only [pyRangeF]
        by_cases hc : 0 < step ∧ start < stop
        · rw [if_pos hc, if_pos hc, ih g (start + step) (by omega) (by omega)]
        · rw [if_neg hc, if_neg hc]
    · rw [pyRangeF_nil _ _ _ _ hlt, pyRangeF_nil _ _ _ _ hlt]

theorem pyRange_stop (start stop step : Nat) (h : ¬(0 < step ∧ start < stop)) :
    pyRange start stop step = [] := by
  unfold pyRange
  cases hd : stop - start with
  | zero => rfl
  | succ f => simp [pyRangeF, h]

theorem pyRange_step (start stop step : Nat) (h : 0 < step ∧ start < stop) :
    pyRange start stop step = start :: pyRange (start + step) stop step := by
  unfold pyRange
  have hd : stop - start = (stop - start - 1) + 1 := by omega
  rw [hd]
  simp only [pyRangeF, if_pos h]
  congr 1
  exact pyRangeF_fuel stop step (stop - start - 1) (stop - (start + step)) (start + step)
    (by omega) (by omega)

/-- The state after one recognition call on `p`. -/
def St.bump (st : St) (p : Str) : St :=
  { st with calls := st.calls + 1, events := .recognizerCall p :: st.events }

@[simp] theorem St.bump_fs (st : St) (p : Str) : (st.bump p).fs = st.fs := rfl

@[simp] theorem St.bump_calls (st : St) (p : Str) : (st.bump p).calls = st.calls + 1 := rfl

@[simp] theorem St.bump_events (st : St) (p : Str) :
    (st.bump p).events = .recognizerCall p :: st.events := rfl

theorem transcribeRetryGo_success (env : Env) (st : St) (p : Str)
    (remaining d : Nat) (t : Str)
    (hf : st.fs.fileAt p = some (.audio d)) (ho : env.oracle st.calls = .success t) :
    transcribeRetryGo env p st (remaining + 1) = .ok (some t, st.bump p) := by
  simp [transcribeRetryGo, hf, ho, St.bump]

theorem transcribeRetryGo_unknown (env : Env) (st : St) (p : Str)
    (remaining d : Nat)
    (hf : st.fs.fileAt p = some (.audio d)) (ho : env.oracle st.calls = .unknownValue) :
    transcribeRetryGo env p st (remaining + 1) = .ok (none, st.bump p) := by
  simp [transcribeRetryGo, hf, ho, St.bump]

theorem transcribeRetryGo_request (env : Env) (st : St) (p : Str)
    (remaining d : Nat)
    (hf : st.fs.fileAt p = some (.audio d)) (ho : env.oracle st.calls = .requestError) :
    transcribeRetryGo env p st (remaining + 1)
      = transcribeRetryGo env p (st.bump p) remaining := by
  simp [transcribeRetryGo, hf, ho, St.bump]

theorem transcribeRetryGo_exhausted (env : Env) (st : St) (p : Str) :
    transcribeRetryGo env p st 0 = .ok (none, st) := rfl

/-- **C4**: with `retries = 3`, if the recognition service raises a transient
request failure on the first two attempts and succeeds on the third, then
`transcribe_with_retry` returns the successful transcription text and makes
exactly 3 recognition calls. -/
theorem claim_C4_retry_transient_then_success (env : Env) (st : St) (p : Str)
    (d : Nat) (t : Str) (hf : st.fs.fileAt p = some (.audio d))
    (h0 : env.oracle st.calls = .requestError)
    (h1 : env.oracle (st.calls + 1) = .requestError)
    (h2 : env.oracle (st.calls + 2) = .success t) :
    ∃ st', transcribe_with_retry env st p 3 = .ok (some t, st') ∧
      st'.calls = st.calls + 3 ∧
      st'.events = .recognizerCall p :: .recognizerCall p :: .recognizerCall p
        :: st.events := by
  unfold transcribe_with_retry
  rw [show (3 : Nat) = 2 + 1 from rfl, transcribeRetryGo_request env st p 2 d hf h0]
  rw [show (2 : Nat) = 1 + 1 from rfl,
    transcribeRetryGo_request env _ p 1 d (by simpa using hf) (by simpa using h1)]
  rw [transcribeRetryGo_success env _ p 0 d t (by simpa using hf) (by simpa using h2)]
  exact ⟨_, rfl, by simp, by simp⟩

theorem claim_C4_witness :
    (let env : Env := ⟨fun n => if n < 2 then .requestError else .success ['o', 'k']⟩
     let st : St := ⟨⟨[(['c'], .audio 7)], []⟩, 0, []⟩
     ∃ st', transcribe_with_retry env st ['c'] 3 = .ok (some ['o', 'k'], st') ∧
       st'.calls = st.calls + 3 ∧
       st'.events = .recognizerCall ['c'] :: .recognizerCall ['c']
         :: .recognizerCall ['c'] :: st.events) :=
  claim_C4_retry_transient_then_success _ _ _ 7 _ (by decide) (by decide) (by decide)
    (by decide)

/-- **C5**: for every retry bound of at least 1, if the recognition service
raises the "content not understood" failure, `transcribe_with_retry` returns
the "no result" marker (`None`) after exactly 1 recognition call, without
retrying. -/
theorem claim_C5_unknown_value_no_retry (env : Env) (st : St) (p : Str)
    (d retries : Nat) (hr : 1 ≤ retries) (hf : st.fs.fileAt p = some (.audio d))
    (h0 : env.oracle st.calls = .unknownValue) :
    ∃ st', transcribe_with_retry env st p retries = .ok (none, st') ∧
      st'.calls = st.calls + 1 ∧
      st'.events = .recognizerCall p :: st.events := by
  unfold transcribe_with_retry
  cases retries with
  | zero => omega
  | succ r =>
    rw [transcribeRetryGo_unknown env st p r d hf h0]
    exact ⟨_, rfl, by simp, by simp⟩

theorem claim_C5_witness :
    (let env : Env := ⟨fun _ => .unknownValue⟩
     let st : St := ⟨⟨[(['c'], .audio 7)], []⟩, 0, []⟩
     ∃ st', transcribe_with_retry env st ['c'] 5 = .ok (none, st') ∧
       st'.calls = st.calls + 1 ∧
       st'.events = .recognizerCall ['c'] :: st.events) :=
  claim_C5_unknown_value_no_retry _ _ _ 7 5 (by decide) (by decide) (by decide)

/-- **C10**: on a zero-duration audio artifact, `split_audio` returns an
empty chunk list (not the original path), and `transcribe_audio` on such a
file returns the "no result" marker without any recognition call. -/
theorem claim_C10_zero_duration (env : Env) (st : St) (p : Str)
    (hf : st.fs.fileAt p = some (.audio 0)) :
    (split_audio st p).1 = [] ∧
    ∃ st', transcribe_audio env st p = .ok (none, st') ∧
      st'.calls = st.calls ∧ st'.events = st.events := by
  have hrange : pyRange 0 0 60000 = [] := pyRange_stop _ _ _ (by omega)
  constructor
  · simp [split_audio, hf, hrange, splitGo]
  · simp only [transcribe_audio, standardize_audio, hf]
    simp only [split_audio, fileAt_writeFile_self, hrange, splitGo]
    simp only [chunkLoop]
    exact ⟨_, rfl, rfl, rfl⟩

theorem claim_C10_witness :
    (let env : Env := ⟨fun _ => .requestError⟩
     let st : St := ⟨⟨[(['c', '.', 'w', 'a', 'v'], .audio 0)], []⟩, 3, []⟩
     (split_audio st ['c', '.', 'w', 'a', 'v']).1 = [] ∧
     ∃ st', transcribe_audio env st ['c', '.', 'w', 'a', 'v'] = .ok (none, st') ∧
       st'.calls = st.calls ∧ st'.events = st.events) :=
  claim_C10_zero_duration _ _ _ (by decide)

/-! ### Chunk arithmetic (C6) -/

theorem ceilDiv_succ (m step : Nat) (hs : 0 < step) (hm : 0 < m) :
    (m + step - 1) / step = (m - step + step - 1) / step + 1 := by
  rcases Nat.lt_or_ge m step with h | h
  · have h1 : m - step = 0 := by omega
    have h2 : m + step - 1 = (m - 1) + step := by omega
    rw [h1, h2, Nat.add_div_right _ hs, Nat.div_eq_of_lt (by omega),
      Nat.div_eq_of_lt (by omega)]
  · have h2 : m + step - 1 = (m - 1) + step := by omega
    have h3 : m - step + step - 1 = m - 1 := by omega
    rw [h2, h3, Nat.add_div_right _ hs]

theorem pyRange_eq_map (step : Nat) (hs : 0 < step) :
    ∀ n start stop, stop - start ≤ n →
      pyRange start stop step
        = (List.range ((stop - start + step - 1) / step)).map (fun i => start + i * step) := by
  intro n
  induction n with
  | zero =>
    intro start stop h
    rw [pyRange_stop _ _ _ (by omega), show stop - start = 0 by omega]
    rw [Nat.div_eq_of_lt (by omega), List.range_zero, List.map_nil]
  | succ n ih =>
    intro start stop h
    by_cases hlt : start < stop
    · rw [pyRange_step _ _ _ ⟨hs, hlt⟩]
      have hsub : stop - (start + step) = stop - start - step := by omega
      rw [ih (start + step) stop (by omega), hsub,
        ceilDiv_succ (stop - start) step hs (by omega), List.range_succ_eq_map,
        List.map_cons, List.map_map]
      simp only [Nat.zero_mul, Nat.add_zero]
      congr 1
      refine List.map_congr_left (fun a _ => ?_)
      simp only [Function.comp_apply, Nat.succ_mul, Nat.succ_eq_add_one]
      ring
    · rw [pyRange_stop _ _ _ (by omega), show stop - start = 0 by omega]
      rw [Nat.div_eq_of_lt (by omega), List.range_zero, List.map_nil]

theorem pyRange_sum_min (step : Nat) (hs : 0 < step) :
    ∀ n start stop, stop - start ≤ n →
      ((pyRange start stop step).map (fun i => min step (stop - i))).sum
        = stop - start := by
  intro n
  induction n with
  | zero =>
    intro start stop h
    rw [pyRange_stop _ _ _ (by omega)]
    simp
    omega
  | succ n ih =>
    intro start stop h
    by_cases hlt : start < stop
    · rw [pyRange_step _ _ _ ⟨hs, hlt⟩, List.map_cons, List.sum_cons,
        ih (start + step) stop (by omega)]
      omega
    · rw [pyRange_stop _ _ _ (by omega)]
      simp
      omega

theorem splitGo_chunks (p : Str) (L d : Nat) :
    ∀ (starts : List Nat) (fs : FS),
      (splitGo p L d fs starts).1 = starts.map (chunkPathOf p L) := by
  intro starts
  induction starts with
  | nil => intro fs; rfl
  | cons i rest ih => intro fs; simp [splitGo, ih]

/-- **C6**: on an audio artifact of duration `d` and positive chunk length
`L`, `split_audio` returns exactly `⌈d / L⌉` chunk paths, the `i`-th carrying
chunk index `i` (the window starting at `i * L`), and the window durations
sum to `d`. -/
theorem claim_C6_split_count_order_duration (st : St) (p : Str) (d L : Nat)
    (hL : 0 < L) (hf : st.fs.fileAt p = some (.audio d)) :
    (split_audio st p L).1.length = (d + L - 1) / L ∧
    (split_audio st p L).1 = (List.range ((d + L - 1) / L)).map
      (fun i => pyReplaceL p ".wav".data [] ++ "_chunk".data ++ natDecimal i
        ++ ".wav".data) ∧
    ((List.range ((d + L - 1) / L)).map (fun i => min L (d - i * L))).sum = d := by
  have hmap := pyRange_eq_map L hL d 0 d (by omega)
  simp only [Nat.sub_zero] at hmap
  have hchunks : (split_audio st p L).1 = (pyRange 0 d L).map (chunkPathOf p L) := by
    simp only [split_audio, hf]
    rw [if_neg (by omega)]
    exact splitGo_chunks p L d (pyRange 0 d L) st.fs
  have hpaths : (split_audio st p L).1 = (List.range ((d + L - 1) / L)).map
      (fun i => pyReplaceL p ".wav".data [] ++ "_chunk".data ++ natDecimal i
        ++ ".wav".data) := by
    rw [hchunks, hmap, List.map_map]
    refine List.map_congr_left (fun a _ => ?_)
    simp only [Function.comp_apply, chunkPathOf, Nat.zero_add]
    rw [Nat.mul_div_cancel a hL, List.append_assoc]
  refine ⟨?_, hpaths, ?_⟩
  · rw [hpaths, List.length_map, List.length_range]
  · have hsum := pyRange_sum_min L hL d 0 d (by omega)
    simp only [Nat.sub_zero] at hsum
    calc ((List.range ((d + L - 1) / L)).map (fun i => min L (d - i * L))).sum
        = ((pyRange 0 d L).map (fun i => min L (d - i))).sum := by
          rw [hmap, List.map_map]
          exact congrArg List.sum (List.map_congr_left (fun a _ => by
            simp [Function.comp_apply]))
      _ = d := hsum

theorem claim_C6_witness :
    (let st : St := ⟨⟨[(['c', '.', 'w', 'a', 'v'], .audio 150000)], []⟩, 0, []⟩
     (split_audio st ['c', '.', 'w', 'a', 'v'] 60000).1.length
        = (150000 + 60000 - 1) / 60000 ∧
     (split_audio st ['c', '.', 'w', 'a', 'v'] 60000).1
        = (List.range ((150000 + 60000 - 1) / 60000)).map
          (fun i => pyReplaceL ['c', '.', 'w', 'a', 'v'] ".wav".data []
            ++ "_chunk".data ++ natDecimal i ++ ".wav".data) ∧
     ((List.range ((150000 + 60000 - 1) / 60000)).map
        (fun i => min 60000 (150000 - i * 60000))).sum = 150000) :=
  claim_C6_split_count_order_duration _ _ 150000 60000 (by decide) (by decide)

/-! ### Ledger JSON round trip (C7) -/

theorem skipWs_cons_not_ws (c : Char) (t : Str) (h : isWsChar c = false) :
    skipWs (c :: t) = c :: t := by
  rw [skipWs, if_neg (by simp [h])]

theorem skipWs_cons_ws (c : Char) (t : Str) (h : isWsChar c = true) :
    skipWs (c :: t) = skipWs t := by
  rw [skipWs, if_pos (by simp [h])]

theorem hexVal_hexDigitChar : ∀ n < 16, hexVal (hexDigitChar n) = some n := by decide

theorem parseSBF_nil (f : Nat) : parseSBF f [] = none := by cases f <;> rfl

theorem parseSBF_fuel : ∀ f g (s : Str), s.length ≤ f → s.length ≤ g →
    parseSBF f s = parseSBF g s := by
  intro f
  induction f with
  | zero =>
    intro g s hf _
    have hs : s = [] := List.eq_nil_of_length_eq_zero (by omega)
    subst hs
    rw [parseSBF_nil, parseSBF_nil]
  | succ f ih =>
    intro g s hf hg
    cases s with
    | nil => rw [parseSBF_nil, parseSBF_nil]
    | cons c rest =>
      cases g with
      | zero => simp at hg
      | succ g =>
        by_cases h1 : c = '"'
        · subst h1; simp [parseSBF]
        · by_cases h2 : c = '\\'
          · subst h2
            cases rest with
            | nil => simp [parseSBF, h1]
            | cons e rest' =>
              by_cases h3 : e = 'u'
              · subst h3
                match rest' with
                | h1c :: h2c :: h3c :: h4c :: rest'' =>
                  simp only [List.length_cons] at hf hg
                  simp [parseSBF, ih g rest'' (by omega) (by omega)]
                | [] => simp [parseSBF]
                | [a] => simp [parseSBF]
                | [a, b] => simp [parseSBF]
                | [a, b, c] => simp [parseSBF]
              · simp only [List.length_cons] at hf hg
                simp [parseSBF, h3, ih g rest' (by omega) (by omega)]
          · simp only [List.length_cons] at hf hg
            simp [parseSBF, h1, h2, ih g rest (by omega) (by omega)]

theorem psb_quote (rest : Str) : parseStringBody ('"' :: rest) = some ([], rest) := rfl

theorem psb_plain (c : Char) (rest : Str) (h1 : ¬ c = '"') (h2 : ¬ c = '\\') :
    parseStringBody (c :: rest)
      = (parseStringBody rest).bind (fun pr => some (c :: pr.1, pr.2)) := by
  simp only [parseStringBody, List.length_cons, parseSBF, if_neg h1, if_neg h2]
  rfl

theorem psb_esc (e : Char) (rest : Str) (he : ¬ e = 'u') :
    parseStringBody ('\\' :: e :: rest)
      = (unescapeChar e).bind (fun c2 =>
          (parseStringBody rest).bind (fun pr => some (c2 :: pr.1, pr.2))) := by
  simp only [parseStringBody, List.length_cons, parseSBF,
    if_neg (show ¬ ('\\' : Char) = '"' by decide), if_pos rfl, if_neg he]
  simp only [parseSBF_fuel (rest.length + 1) rest.length rest (by omega) (by omega)]
  rfl

theorem psb_u (h1 h2 h3 h4 : Char) (rest : Str) :
    parseStringBody ('\\' :: 'u' :: h1 :: h2 :: h3 :: h4 :: rest)
      = (hexVal h1).bind (fun a => (hexVal h2).bind (fun b => (hexVal h3).bind
          (fun c2 => (hexVal h4).bind (fun d =>
            (parseStringBody rest).bind (fun pr =>
              some (Char.ofNat (((a * 16 + b) * 16 + c2) * 16 + d) :: pr.1, pr.2)))))) := by
  simp only [parseStringBody, List.length_cons, parseSBF,
    if_neg (show ¬ ('\\' : Char) = '"' by decide), if_pos rfl]
  simp only [parseSBF_fuel (rest.length + 5) rest.length rest (by omega) (by omega)]
  rfl

theorem parseStringBody_escape : ∀ (s rest : Str),
    parseStringBody (escapeList s ++ '"' :: rest) = some (s, rest) := by
  intro s
  induction s with
  | nil => intro rest; simp only [escapeList, List.nil_append]; exact psb_quote rest
  | cons c t ih =>
    intro rest
    simp only [escapeList, List.append_assoc]
    by_cases h1 : c = '"'
    · subst h1
      rw [show escapeChar '"' = ['\\', '"'] from by decide]
      simp only [List.cons_append, List.nil_append]
      rw [psb_esc '"' _ (by decide)]
      rw [show unescapeChar '"' = some '"' from by decide]
      simp [ih]
    · by_cases h2 : c = '\\'
      · subst h2
        rw [show escapeChar '\\' = ['\\', '\\'] from by decide]
        simp only [List.cons_append, List.nil_append]
        rw [psb_esc '\\' _ (by decide)]
        rw [show unescapeChar '\\' = some '\\' from by decide]
        simp [ih]
      · by_cases h3 : c = '\n'
        · subst h3
          rw [show escapeChar '\n' = ['\\', 'n'] from by decide]
          simp only [List.cons_append, List.nil_append]
          rw [psb_esc 'n' _ (by decide)]
          rw [show unescapeChar 'n' = some '\n' from by decide]
          simp [ih]
        · by_cases h4 : c = '\r'
          · subst h4
            rw [show escapeChar '\r' = ['\\', 'r'] from by decide]
            simp only [List.cons_append, List.nil_append]
            rw [psb_esc 'r' _ (by decide)]
            rw [show unescapeChar 'r' = some '\r' from by decide]
            simp [ih]
          · by_cases h5 : c = '\t'
            · subst h5
              rw [show escapeChar '\t' = ['\\', 't'] from by decide]
              simp only [List.cons_append, List.nil_append]
              rw [psb_esc 't' _ (by decide)]
              rw [show unescapeChar 't' = some '\t' from by decide]
              simp [ih]
            · by_cases h6 : c.toNat = 8
              · have hc : c = Char.ofNat 8 := by rw [← h6, Char.ofNat_toNat]
                subst hc
                rw [show escapeChar (Char.ofNat 8) = ['\\', 'b'] from by decide]
                simp only [List.cons_append, List.nil_append]
                rw [psb_esc 'b' _ (by decide)]
                rw [show unescapeChar 'b' = some (Char.ofNat 8) from by decide]
                simp [ih]
              · by_cases h7 : c.toNat = 12
                · have hc : c = Char.ofNat 12 := by rw [← h7, Char.ofNat_toNat]
                  subst hc
                  rw [show escapeChar (Char.ofNat 12) = ['\\', 'f'] from by decide]
                  simp only [List.cons_append, List.nil_append]
                  rw [psb_esc 'f' _ (by decide)]
                  rw [show unescapeChar 'f' = some (Char.ofNat 12) from by decide]
                  simp [ih]
                · by_cases h8 : c.toNat < 32
                  · simp only [escapeChar, if_neg h1, if_neg h2, if_neg h3, if_neg h4,
                      if_neg h5, if_neg h6, if_neg h7, if_pos h8, List.cons_append,
                      List.nil_append]
                    rw [psb_u]
                    rw [show hexVal '0' = some 0 from by decide]
                    rw [hexVal_hexDigitChar (c.toNat / 16) (by omega)]
                    rw [hexVal_hexDigitChar (c.toNat % 16) (by omega)]
                    simp only [Option.bind_eq_bind, Option.some_bind, ih]
                    have hval : ((0 * 16 + 0) * 16 + c.toNat / 16) * 16 + c.toNat % 16
                        = c.toNat := by omega
                    rw [hval, Char.ofNat_toNat]
                  · simp only [escapeChar, if_neg h1, if_neg h2, if_neg h3, if_neg h4,
                      if_neg h5, if_neg h6, if_neg h7, if_neg h8, List.cons_append,
                      List.nil_append]
                    rw [psb_plain c _ h1 h2]
                    simp [ih]

theorem skipWs_idem (y : Str) : skipWs (skipWs y) = skipWs y := by
  induction y with
  | nil => rfl
  | cons c t ih =>
    by_cases h : isWsChar c = true
    · rw [skipWs_cons_ws c t h, ih]
    · rw [skipWs_cons_not_ws c t (by simpa using h), skipWs_cons_not_ws c t (by simpa using h)]

theorem parseEntries_skipWs (f : Nat) (y : Str) :
    parseEntries f (skipWs y) = parseEntries f y := by
  cases f with
  | zero => rfl
  | succ f => simp only [parseEntries, skipWs_idem]

theorem parseEntries_ws (f : Nat) (c : Char) (z : Str) (h : isWsChar c = true) :
    parseEntries f (c :: z) = parseEntries f z := by
  rw [← parseEntries_skipWs f (c :: z), skipWs_cons_ws c z h, parseEntries_skipWs]

theorem skipWs_renderValue (v : Option Str) (z : Str) :
    skipWs (renderValue v ++ z) = renderValue v ++ z := by
  cases v with
  | none => simp only [renderValue]; exact skipWs_cons_not_ws _ _ (by decide)
  | some t =>
    simp only [renderValue, encodeString, List.cons_append]
    exact skipWs_cons_not_ws _ _ (by decide)

theorem parseValue_render (v : Option Str) (rest : Str) :
    parseValue (renderValue v ++ rest) = some (v, rest) := by
  cases v with
  | none => simp only [renderValue]; rfl
  | some t =>
    simp only [renderValue, encodeString, List.cons_append, List.append_assoc,
      List.cons_append, List.nil_append]
    show parseValue ('"' :: (escapeList t ++ '"' :: rest)) = some (some t, rest)
    simp only [parseValue, parseStringBody_escape t rest]
    rfl

theorem parseEntries_entryLine (k : Str) (v : Option Str) (tail : Str) (f : Nat) :
    parseEntries (f + 1) (renderEntryLine (k, v) ++ tail)
      = match skipWs tail with
        | ',' :: r4 => (parseEntries f r4).bind (fun pr => some ((k, v) :: pr.1, pr.2))
        | '\x7d' :: r4 => some ([(k, v)], r4)
        | _ => none := by
  have hskip : skipWs (renderEntryLine (k, v) ++ tail)
      = '"' :: (escapeList k ++ '"' :: (':' :: ' ' :: (renderValue v ++ tail))) := by
    simp only [renderEntryLine, encodeString, List.cons_append, List.append_assoc,
      List.nil_append]
    rw [skipWs_cons_ws _ _ (by decide), skipWs_cons_ws _ _ (by decide),
      skipWs_cons_ws _ _ (by decide), skipWs_cons_ws _ _ (by decide),
      skipWs_cons_not_ws _ _ (by decide)]
  rw [parseEntries, hskip]
  simp only [parseStringBody_escape k, Option.bind_eq_bind, Option.some_bind]
  rw [skipWs_cons_not_ws ':' (' ' :: (renderValue v ++ tail)) (by decide)]
  simp only [Option.bind_eq_bind]
  rw [skipWs_cons_ws ' ' (renderValue v ++ tail) (by decide), skipWs_renderValue]
  simp only [parseValue_render v tail, Option.some_bind]
  rfl

theorem skipWs_entryLine (k : Str) (v : Option Str) (tail : Str) :
    skipWs (renderEntryLine (k, v) ++ tail)
      = '"' :: (escapeList k ++ '"' :: (':' :: ' ' :: (renderValue v ++ tail))) := by
  simp only [renderEntryLine, encodeString, List.cons_append, List.append_assoc,
    List.nil_append]
  rw [skipWs_cons_ws _ _ (by decide), skipWs_cons_ws _ _ (by decide),
    skipWs_cons_ws _ _ (by decide), skipWs_cons_ws _ _ (by decide),
    skipWs_cons_not_ws _ _ (by decide)]

theorem renderEntries_length_ge : ∀ m : Ledger, m.length ≤ (renderEntries m).length := by
  intro m
  induction m with
  | nil => simp [renderEntries]
  | cons kv m' ih =>
    cases m' with
    | nil =>
      simp only [renderEntries, renderEntryLine, encodeString, List.length_cons,
        List.length_append, List.length_nil]
      simp
      omega
    | cons kv2 m'' =>
      rw [show renderEntries (kv :: kv2 :: m'')
          = renderEntryLine kv ++ ',' :: '\n' :: renderEntries (kv2 :: m'') from rfl]
      simp only [List.length_cons, List.length_append] at *
      omega

theorem parseEntries_render : ∀ (m : Ledger), m ≠ [] → ∀ (f : Nat), m.length ≤ f →
    ∀ (rest : Str),
      parseEntries f (renderEntries m ++ '\n' :: '\x7d' :: rest) = some (m, rest) := by
  intro m
  induction m with
  | nil => intro h; exact absurd rfl h
  | cons kv m' ih =>
    intro _ f hf rest
    obtain ⟨k, v⟩ := kv
    cases f with
    | zero => simp at hf
    | succ f =>
      cases m' with
      | nil =>
        rw [show renderEntries [(k, v)] = renderEntryLine (k, v) from rfl]
        rw [parseEntries_entryLine k v _ f]
        rw [skipWs_cons_ws '\n' _ (by decide), skipWs_cons_not_ws '\x7d' _ (by decide)]
        rfl
      | cons kv2 m'' =>
        rw [show renderEntries ((k, v) :: kv2 :: m'')
            = renderEntryLine (k, v) ++ ',' :: '\n' :: renderEntries (kv2 :: m'') from rfl]
        rw [List.append_assoc]
        rw [parseEntries_entryLine k v _ f]
        simp only [List.cons_append]
        rw [skipWs_cons_not_ws ',' _ (by decide)]
        simp only []
        rw [parseEntries_ws f '\n' _ (by decide)]
        rw [ih (by simp) f (by simp at hf ⊢; omega) rest]
        rfl

theorem parseLedger_render (m : Ledger) : parseLedger (renderLedger m) = some m := by
  cases m with
  | nil => rfl
  | cons kv m' =>
    obtain ⟨k, v⟩ := kv
    have hne : ((k, v) :: m' : Ledger) ≠ [] := by simp
    have hstart : ∀ X : Str, ∃ z : Str,
        skipWs (renderEntries ((k, v) :: m') ++ X) = '"' :: z ∧
        ((k, v) :: m').length ≤ ('"' :: z : Str).length := by
      intro X
      cases m' with
      | nil =>
        rw [show renderEntries [(k, v)] = renderEntryLine (k, v) from rfl]
        exact ⟨_, skipWs_entryLine k v X, by simp⟩
      | cons kv2 m'' =>
        rw [show renderEntries ((k, v) :: kv2 :: m'')
            = renderEntryLine (k, v) ++ ',' :: '\n' :: renderEntries (kv2 :: m'')
            from rfl, List.append_assoc]
        refine ⟨_, skipWs_entryLine k v _, ?_⟩
        have := renderEntries_length_ge (kv2 :: m'')
        simp only [List.length_cons, List.length_append] at *
        omega
    rw [show renderLedger ((k, v) :: m')
        = '\x7b' :: '\n' :: (renderEntries ((k, v) :: m') ++ '\n' :: ['\x7d']) from rfl]
    obtain ⟨z, hz, hlen⟩ := hstart ('\n' :: ['\x7d'])
    simp only [parseLedger, skipWs_cons_not_ws '\x7b' _ (by decide), if_true]
    simp only [skipWs_cons_ws '\n' _ (by decide), hz]
    rw [if_neg (show ¬ ('"' : Char) = '\x7d' from by decide)]
    have hfe : ∀ g : Nat, ((k, v) :: m').length ≤ g →
        parseEntries g ('"' :: z) = some ((k, v) :: m', []) := by
      intro g hg
      rw [← hz, parseEntries_skipWs]
      exact parseEntries_render ((k, v) :: m') hne g hg []
    have hpe : parseEntries ('"' :: z : Str).length ('"' :: z)
        = some ((k, v) :: m', []) := hfe _ hlen
    simp only [hpe]
    rfl

theorem ledger_roundtrip_test : parseLedger (renderLedger [(['a'], none)]) = some [(['a'], none)] :=
  parseLedger_render _

/-- **C7**: saving any ledger mapping (string or null values, any characters
including non-ASCII) with `save_transcriptions_to_json` and reloading the
written file with `load_existing_transcriptions` yields the original mapping. -/
theorem claim_C7_ledger_roundtrip (st : St) (m : Ledger) (path : Str) :
    load_existing_transcriptions ((save_transcriptions_to_json st m path).fs) path
      = m := by
  have hlo : loadOutcome ((save_transcriptions_to_json st m path).fs) path
      = LoadOutcome.dict m := by
    unfold loadOutcome save_transcriptions_to_json
    rw [if_pos (by simp [FS.pathExists, fileAt_writeFile_self])]
    simp only [fileAt_writeFile_self, parseLedger_render]
  unfold load_existing_transcriptions
  rw [hlo]

/-- **C8**: `load_existing_transcriptions` fails soft: a missing file yields
the empty mapping, and an existing file whose content does not parse as
structured data yields the empty mapping (the error is caught), never an
exception. -/
theorem claim_C8_load_fails_soft (fs : FS) (p : Str) :
    ((fs.fileAt p).isSome = false → load_existing_transcriptions fs p = []) ∧
    (∀ s, fs.fileAt p = some (.text s) → parseLedger s = none →
      load_existing_transcriptions fs p = []) := by
  constructor
  · intro h
    unfold load_existing_transcriptions loadOutcome
    by_cases hp : fs.pathExists p = true
    · rw [if_pos hp]
      cases hfa : fs.fileAt p with
      | none => rfl
      | some c => rw [hfa] at h; simp at h
    · rw [if_neg (by simpa using hp)]
  · intro s hs hparse
    unfold load_existing_transcriptions loadOutcome
    rw [if_pos (by simp [FS.pathExists, hs])]
    simp only [hs, hparse]
    cases hjv : parseJsonValue s with
    | none => rfl
    | some v => cases v <;> rfl

theorem claim_C8_witness :
    (load_existing_transcriptions ⟨[], []⟩ ['a'] = [] ∧
     load_existing_transcriptions ⟨[(['a'], .text ['x'])], []⟩ ['a'] = []) :=
  ⟨(claim_C8_load_fails_soft ⟨[], []⟩ ['a']).1 (by decide),
   (claim_C8_load_fails_soft ⟨[(['a'], .text ['x'])], []⟩ ['a']).2 ['x']
     (by decide) (by decide)⟩

theorem isPrefixOf_eq_true : ∀ (p l : Str), p.isPrefixOf l = true ↔ ∃ t, l = p ++ t := by
  intro p
  induction p with
  | nil => intro l; simp [List.isPrefixOf]
  | cons a ps ih =>
    intro l
    cases l with
    | nil => simp [List.isPrefixOf]
    | cons b bs =>
      simp only [List.isPrefixOf, Bool.and_eq_true, beq_iff_eq, ih bs]
      constructor
      · rintro ⟨rfl, t, rfl⟩
        exact ⟨t, rfl⟩
      · rintro ⟨t, ht⟩
        injection ht with h1 h2
        exact ⟨h1.symm, t, h2⟩

theorem pyReplaceF_nilf (pat rep : Str) (f : Nat) : pyReplaceF pat rep f [] = [] := by
  cases f <;> rfl

theorem pyReplaceF_fuel (pat rep : Str) :
    ∀ f g (s : Str), s.length ≤ f → s.length ≤ g →
      pyReplaceF pat rep f s = pyReplaceF pat rep g s := by
  intro f
  induction f with
  | zero =>
    intro g s hf _
    have hs : s = [] := List.eq_nil_of_length_eq_zero (by omega)
    subst hs
    rw [pyReplaceF_nilf, pyReplaceF_nilf]
  | succ f ih =>
    intro g s hf hg
    cases s with
    | nil => rw [pyReplaceF_nilf, pyReplaceF_nilf]
    | cons c cs =>
      cases g with
      | zero => simp at hg
      | succ g =>
        simp only [pyReplaceF]
        simp only [List.length_cons] at hf hg
        by_cases hc : pat ≠ [] ∧ pat.isPrefixOf (c :: cs) = true
        · have hp : 0 < pat.length := List.length_pos.mpr hc.1
          rw [if_pos hc, if_pos hc,
            ih g ((c :: cs).drop pat.length)
              (by simp only [List.length_drop, List.length_cons]; omega)
              (by simp only [List.length_drop, List.length_cons]; omega)]
        · rw [if_neg hc, if_neg hc, ih g cs (by omega) (by omega)]

theorem pyReplaceL_nil (pat rep : Str) : pyReplaceL [] pat rep = [] := rfl

theorem pyReplaceL_cons_pos (c : Char) (cs pat rep : Str)
    (h : pat ≠ [] ∧ pat.isPrefixOf (c :: cs) = true) :
    pyReplaceL (c :: cs) pat rep
      = rep ++ pyReplaceL ((c :: cs).drop pat.length) pat rep := by
  unfold pyReplaceL
  simp only [List.length_cons, pyReplaceF, if_pos h]
  congr 1
  refine pyReplaceF_fuel pat rep cs.length ((c :: cs).drop pat.length).length _ ?_ le_rfl
  have hp : 0 < pat.length := List.length_pos.mpr h.1
  simp only [List.length_drop, List.length_cons]
  omega

theorem pyReplaceL_cons_neg (c : Char) (cs pat rep : Str)
    (h : ¬ (pat ≠ [] ∧ pat.isPrefixOf (c :: cs) = true)) :
    pyReplaceL (c :: cs) pat rep = c :: pyReplaceL cs pat rep := by
  unfold pyReplaceL
  simp only [List.length_cons, pyReplaceF, if_neg h]

theorem pyReplaceL_no_occurrence : ∀ (s pat rep : Str), containsSub s pat = false →
    pyReplaceL s pat rep = s := by
  intro s
  induction s with
  | nil => intro pat rep _; rfl
  | cons c cs ih =>
    intro pat rep h
    simp only [containsSub, Bool.or_eq_false_iff] at h
    rw [pyReplaceL_cons_neg c cs pat rep (by simp [h.1]), ih pat rep h.2]

theorem pyReplaceL_length_le_of_rep_nil (pat : Str) :
    ∀ n (s : Str), s.length ≤ n → (pyReplaceL s pat []).length ≤ s.length := by
  intro n
  induction n with
  | zero =>
    intro s hs
    have : s = [] := List.eq_nil_of_length_eq_zero (by omega)
    subst this; simp [pyReplaceL_nil]
  | succ n ih =>
    intro s hs
    cases s with
    | nil => simp [pyReplaceL_nil]
    | cons c cs =>
      by_cases hc : pat ≠ [] ∧ pat.isPrefixOf (c :: cs) = true
      · have hp : 0 < pat.length := List.length_pos.mpr hc.1
        rw [pyReplaceL_cons_pos c cs pat [] hc]
        simp only [List.nil_append, List.length_cons] at *
        have hd := ih ((c :: cs).drop pat.length)
          (by simp only [List.length_drop, List.length_cons]; omega)
        simp only [List.length_drop, List.length_cons] at hd
        omega
      · rw [pyReplaceL_cons_neg c cs pat [] hc]
        simp only [List.length_cons] at *
        have := ih cs (by omega)
        omega

theorem pyReplaceL_shrink (pat : Str) (hpat : pat ≠ []) :
    ∀ n (s : Str), s.length ≤ n → containsSub s pat = true →
      (pyReplaceL s pat []).length + pat.length ≤ s.length := by
  intro n
  induction n with
  | zero =>
    intro s hs hocc
    have : s = [] := List.eq_nil_of_length_eq_zero (by omega)
    subst this
    simp only [containsSub, List.isEmpty_iff] at hocc
    exact absurd hocc hpat
  | succ n ih =>
    intro s hs hocc
    cases s with
    | nil =>
      simp only [containsSub, List.isEmpty_iff] at hocc
      exact absurd hocc hpat
    | cons c cs =>
      by_cases hc : pat.isPrefixOf (c :: cs) = true
      · have hp : 0 < pat.length := List.length_pos.mpr hpat
        have hple : pat.length ≤ cs.length + 1 := by
          obtain ⟨t, ht⟩ := (isPrefixOf_eq_true pat (c :: cs)).1 hc
          have := congrArg List.length ht
          simp only [List.length_cons, List.length_append] at this
          omega
        rw [pyReplaceL_cons_pos c cs pat [] ⟨hpat, hc⟩]
        simp only [List.nil_append, List.length_cons] at *
        have hd := pyReplaceL_length_le_of_rep_nil pat ((c :: cs).drop pat.length).length
          ((c :: cs).drop pat.length) le_rfl
        simp only [List.length_drop, List.length_cons] at hd
        omega
      · simp only [containsSub, hc, Bool.false_or] at hocc
        have hp : 0 < pat.length := List.length_pos.mpr hpat
        rw [pyReplaceL_cons_neg c cs pat [] (by simp [hc])]
        simp only [List.length_cons] at *
        have := ih cs (by omega) hocc
        omega

theorem pyReplaceL_length_ge (pat rep : Str) (hlen : pat.length ≤ rep.length) :
    ∀ n (s : Str), s.length ≤ n → s.length ≤ (pyReplaceL s pat rep).length := by
  intro n
  induction n with
  | zero =>
    intro s hs
    have : s = [] := List.eq_nil_of_length_eq_zero (by omega)
    subst this; simp [pyReplaceL_nil]
  | succ n ih =>
    intro s hs
    cases s with
    | nil => simp [pyReplaceL_nil]
    | cons c cs =>
      by_cases hc : pat ≠ [] ∧ pat.isPrefixOf (c :: cs) = true
      · have hp : 0 < pat.length := List.length_pos.mpr hc.1
        rw [pyReplaceL_cons_pos c cs pat rep hc]
        simp only [List.length_append, List.length_cons] at *
        have hd := ih ((c :: cs).drop pat.length)
          (by simp only [List.length_drop, List.length_cons]; omega)
        simp only [List.length_drop, List.length_cons] at hd
        omega
      · rw [pyReplaceL_cons_neg c cs pat rep hc]
        simp only [List.length_cons] at *
        have := ih cs (by omega)
        omega

theorem pyReplaceL_grow (pat rep : Str) (hpat : pat ≠ [])
    (hlen : pat.length < rep.length) :
    ∀ n (s : Str), s.length ≤ n → containsSub s pat = true →
      s.length < (pyReplaceL s pat rep).length := by
  intro n
  induction n with
  | zero =>
    intro s hs hocc
    have : s = [] := List.eq_nil_of_length_eq_zero (by omega)
    subst this
    simp only [containsSub, List.isEmpty_iff] at hocc
    exact absurd hocc hpat
  | succ n ih =>
    intro s hs hocc
    cases s with
    | nil =>
      simp only [containsSub, List.isEmpty_iff] at hocc
      exact absurd hocc hpat
    | cons c cs =>
      by_cases hc : pat.isPrefixOf (c :: cs) = true
      · have hp : 0 < pat.length := List.length_pos.mpr hpat
        rw [pyReplaceL_cons_pos c cs pat rep ⟨hpat, hc⟩]
        simp only [List.length_append, List.length_cons] at *
        have hd := pyReplaceL_length_ge pat rep (by omega)
          ((c :: cs).drop pat.length).length ((c :: cs).drop pat.length) le_rfl
        simp only [List.length_drop, List.length_cons] at hd
        omega
      · simp only [containsSub, hc, Bool.false_or] at hocc
        rw [pyReplaceL_cons_neg c cs pat rep (by simp [hc])]
        simp only [List.length_cons] at *
        have := ih cs (by omega) hocc
        omega

theorem isPrefixOf_extend (p l1 l2 : Str) (h : p.isPrefixOf l1 = true) :
    p.isPrefixOf (l1 ++ l2) = true := by
  obtain ⟨t, rfl⟩ := (isPrefixOf_eq_true p l1).1 h
  exact (isPrefixOf_eq_true p _).2 ⟨t ++ l2, by simp⟩

theorem isPrefixOf_append_of_le (p l1 l2 : Str) (h : p.isPrefixOf (l1 ++ l2) = true)
    (hl : p.length ≤ l1.length) : p.isPrefixOf l1 = true := by
  obtain ⟨t, ht⟩ := (isPrefixOf_eq_true p (l1 ++ l2)).1 h
  refine (isPrefixOf_eq_true p l1).2 ⟨l1.drop p.length, ?_⟩
  have h1 : (l1 ++ l2).take p.length = l1.take p.length := List.take_append_of_le_length hl
  have h2 : (l1 ++ l2).take p.length = p := by
    rw [ht]
    simp
  have h3 : l1.take p.length = p := by rw [← h1, h2]
  conv_lhs => rw [← List.take_append_drop p.length l1]
  rw [h3]

theorem pyReplaceL_factor (pat rep : Str) (hpat : pat ≠ []) (c0 : Char) (B : Str)
    (hc0 : c0 ∉ pat) :
    ∀ n (s : Str), s.length ≤ n →
      pyReplaceL (s ++ c0 :: B) pat rep
        = pyReplaceL s pat rep ++ pyReplaceL (c0 :: B) pat rep := by
  intro n
  induction n with
  | zero =>
    intro s hs
    have : s = [] := List.eq_nil_of_length_eq_zero (by omega)
    subst this
    simp [pyReplaceL_nil]
  | succ n ih =>
    intro s hs
    cases s with
    | nil => simp [pyReplaceL_nil]
    | cons a s' =>
      simp only [List.cons_append]
      by_cases hpre : pat.isPrefixOf (a :: s' ++ c0 :: B) = true
      · have hfit : pat.length ≤ s'.length + 1 := by
          by_contra hlong
          push_neg at hlong
          obtain ⟨t, ht⟩ := (isPrefixOf_eq_true pat _).1 hpre
          have hget : (a :: s' ++ c0 :: B).get? (s'.length + 1) = some c0 := by
            rw [show a :: s' ++ c0 :: B = (a :: s') ++ c0 :: B from rfl]
            rw [List.get?_append_right (by simp)]
            simp
          rw [ht, List.get?_append (by omega)] at hget
          exact hc0 (List.get?_mem hget)
        have hpre2 : pat.isPrefixOf (a :: s') = true := by
          rw [show a :: s' ++ c0 :: B = (a :: s') ++ c0 :: B from rfl] at hpre
          exact isPrefixOf_append_of_le pat (a :: s') (c0 :: B) hpre (by simpa using hfit)
        have hp : 0 < pat.length := List.length_pos.mpr hpat
        rw [pyReplaceL_cons_pos a (s' ++ c0 :: B) pat rep ⟨hpat, hpre⟩]
        rw [pyReplaceL_cons_pos a s' pat rep ⟨hpat, hpre2⟩]
        have hdrop : (a :: s' ++ c0 :: B).drop pat.length
            = (a :: s').drop pat.length ++ c0 :: B := by
          rw [show a :: s' ++ c0 :: B = (a :: s') ++ c0 :: B from rfl]
          exact List.drop_append_of_le_length (by simpa using hfit)
        rw [show (a :: (s' ++ c0 :: B)).drop pat.length
            = (a :: s' ++ c0 :: B).drop pat.length from rfl, hdrop]
        rw [ih ((a :: s').drop pat.length)
          (by simp only [List.length_drop, List.length_cons] at hs ⊢; omega)]
        rw [List.append_assoc]
      · have hpre2 : ¬ pat.isPrefixOf (a :: s') = true := by
          intro hcon
          exact hpre (isPrefixOf_extend pat (a :: s') (c0 :: B) hcon)
        rw [pyReplaceL_cons_neg a (s' ++ c0 :: B) pat rep (fun hcon => hpre hcon.2)]
        rw [pyReplaceL_cons_neg a s' pat rep (fun hcon => hpre2 hcon.2)]
        rw [ih s' (by simp only [List.length_cons] at hs; omega)]
        rfl

theorem no_dot_no_wav : ∀ (s : Str), (∀ c ∈ s, c ≠ '.') →
    containsSub s ".wav".data = false := by
  intro s
  induction s with
  | nil => intro _; rfl
  | cons c cs ih =>
    intro h
    simp only [containsSub, Bool.or_eq_false_iff]
    refine ⟨?_, ih (fun x hx => h x (List.mem_cons_of_mem c hx))⟩
    have hc : c ≠ '.' := h c (List.mem_cons_self c cs)
    show (('.' :: 'w' :: 'a' :: 'v' :: []) : Str).isPrefixOf (c :: cs) = false
    simp only [List.isPrefixOf, Bool.and_eq_false_iff]
    left
    simpa using fun he => hc he.symm

theorem pyReplaceL_strip_wav :
    ∀ n (X : Str), X.length ≤ n → containsSub X ".wav".data = false →
      pyReplaceL (X ++ ".wav".data) ".wav".data [] = X := by
  intro n
  induction n with
  | zero =>
    intro X hX _
    have : X = [] := List.eq_nil_of_length_eq_zero (by omega)
    subst this
    decide
  | succ n ih =>
    intro X hX hocc
    cases X with
    | nil => decide
    | cons a X' =>
      simp only [containsSub, Bool.or_eq_false_iff] at hocc
      by_cases hpre : (".wav".data).isPrefixOf (a :: X' ++ ".wav".data) = true
      · exfalso
        match X' with
        | b :: c :: d :: X'' =>
          have hfit : (".wav".data).isPrefixOf (a :: b :: c :: d :: X'') = true := by
            refine isPrefixOf_append_of_le ".wav".data (a :: b :: c :: d :: X'')
              ".wav".data ?_ (by simp)
            exact hpre
          rw [hocc.1] at hfit
          exact Bool.false_ne_true hfit
        | [] => simp [List.isPrefixOf] at hpre
        | [b] => simp [List.isPrefixOf] at hpre
        | [b, c] => simp [List.isPrefixOf] at hpre
      · rw [show (a :: X') ++ ".wav".data = a :: (X' ++ ".wav".data) from rfl]
        rw [pyReplaceL_cons_neg a (X' ++ ".wav".data) _ _ (fun hcon => hpre hcon.2)]
        rw [ih X' (by simp only [List.length_cons] at hX; omega) hocc.2]

theorem digitChar_range (n : Nat) :
    48 ≤ (digitChar n).toNat ∧ (digitChar n).toNat ≤ 57 := by
  have key : ∀ m, m < 10 →
      48 ≤ (Char.ofNat (48 + m)).toNat ∧ (Char.ofNat (48 + m)).toNat ≤ 57 := by decide
  exact key (n % 10) (Nat.mod_lt _ (by omega))

theorem natDecF_digits : ∀ (f : Nat) (n : Nat) (c : Char), c ∈ natDecF f n →
    48 ≤ c.toNat ∧ c.toNat ≤ 57 := by
  intro f
  induction f with
  | zero => intro n c hc; simp [natDecF] at hc
  | succ f ih =>
    intro n c hc
    simp only [natDecF] at hc
    by_cases hn : n < 10
    · rw [if_pos hn] at hc
      simp only [List.mem_singleton] at hc
      subst hc
      exact digitChar_range n
    · rw [if_neg hn] at hc
      rcases List.mem_append.mp hc with h | h
      · exact ih (n / 10) c h
      · simp only [List.mem_singleton] at h
        subst h
        exact digitChar_range (n % 10)

theorem natDecimal_no_dot (n : Nat) (c : Char) (hc : c ∈ natDecimal n) : c ≠ '.' := by
  have := natDecF_digits (n + 1) n c hc
  intro he
  subst he
  revert this
  decide

theorem pyReplaceL_no_fixpoint (B' : Str)
    (hB : containsSub ('_' :: B') ".wav".data = false) :
    ∀ n (X : Str), X.length ≤ n →
      X ≠ pyReplaceL X ".wav".data [] ++ '_' :: B' := by
  intro n
  induction n with
  | zero =>
    intro X hX heq
    have : X = [] := List.eq_nil_of_length_eq_zero (by omega)
    subst this
    simp [pyReplaceL_nil] at heq
  | succ n ih =>
    intro X hX heq
    by_cases hocc : containsSub X ".wav".data = true
    · have hlt := pyReplaceL_shrink ".wav".data (by decide) X.length X le_rfl hocc
      have h4 : (".wav".data : Str).length = 4 := rfl
      have heq2 : pyReplaceL X ".wav".data []
          = pyReplaceL (pyReplaceL X ".wav".data []) ".wav".data [] ++ '_' :: B' := by
        conv_lhs => rw [heq]
        rw [pyReplaceL_factor ".wav".data [] (by decide) '_' B' (by decide)
          (pyReplaceL X ".wav".data []).length _ le_rfl]
        rw [pyReplaceL_no_occurrence ('_' :: B') ".wav".data [] hB]
      exact ih (pyReplaceL X ".wav".data []) (by omega) heq2
    · rw [pyReplaceL_no_occurrence X _ _ (by simpa using hocc)] at heq
      have := congrArg List.length heq
      simp at this

theorem chunk_tail_no_dot (ds : Str) (hds : ∀ c ∈ ds, c ≠ '.') :
    containsSub ('_' :: ("chunk".data ++ ds)) ".wav".data = false := by
  refine no_dot_no_wav _ ?_
  intro c hc
  rcases List.mem_cons.mp hc with rfl | hc2
  · decide
  · rcases List.mem_append.mp hc2 with h | h
    · fin_cases h <;> decide
    · exact hds c h

/-- No chunk path produced by `split_audio` ever equals the path it was
derived from. -/
theorem chunkPathOf_ne (p : Str) (L i : Nat) : chunkPathOf p L i ≠ p := by
  intro heq
  have hds : ∀ c ∈ natDecimal (i / L), c ≠ '.' := fun c hc => natDecimal_no_dot _ c hc
  have hA := chunk_tail_no_dot (natDecimal (i / L)) hds
  unfold chunkPathOf at heq
  have hshape : pyReplaceL p ".wav".data [] ++ "_chunk".data ++ natDecimal (i / L)
      ++ ".wav".data
      = pyReplaceL p ".wav".data []
        ++ '_' :: ("chunk".data ++ natDecimal (i / L) ++ ".wav".data) := by
    simp [List.append_assoc]
  rw [hshape] at heq
  have h1 : pyReplaceL p ".wav".data []
      = pyReplaceL (pyReplaceL p ".wav".data []) ".wav".data []
        ++ '_' :: ("chunk".data ++ natDecimal (i / L)) := by
    conv_lhs => rw [← heq]
    rw [pyReplaceL_factor ".wav".data [] (by decide) '_'
      ("chunk".data ++ natDecimal (i / L) ++ ".wav".data) (by decide)
      (pyReplaceL p ".wav".data []).length _ le_rfl]
    congr 1
    rw [show ('_' :: ("chunk".data ++ natDecimal (i / L) ++ ".wav".data) : Str)
        = ('_' :: ("chunk".data ++ natDecimal (i / L))) ++ ".wav".data by simp]
    rw [pyReplaceL_strip_wav ('_' :: ("chunk".data ++ natDecimal (i / L))).length _
      le_rfl hA]
  exact pyReplaceL_no_fixpoint ("chunk".data ++ natDecimal (i / L)) hA
    (pyReplaceL p ".wav".data []).length _ le_rfl h1

theorem splitGo_fileAt_preserved (p : Str) (L d : Nat) :
    ∀ (starts : List Nat) (fs : FS),
      (splitGo p L d fs starts).2.fileAt p = fs.fileAt p := by
  intro starts
  induction starts with
  | nil => intro fs; rfl
  | cons i rest ih =>
    intro fs
    simp only [splitGo]
    rw [ih, fileAt_writeFile_ne _ _ _ _ (fun he => chunkPathOf_ne p L i he.symm)]

/-- **C9 (counterexample)**: `standardize_audio` overwrites a pre-existing
audio artifact: with `a.wav` (5 ms) and a stale `a_standardized.wav` (7 ms)
on disk, standardizing `a.wav` replaces the existing `a_standardized.wav`,
so an existing audio artifact is mutated in place. -/
theorem claim_C9_counterexample :
    (let stdP : Str := ['a', '_', 's', 't', 'a', 'n', 'd', 'a', 'r', 'd', 'i',
       'z', 'e', 'd', '.', 'w', 'a', 'v']
     let st : St := ⟨⟨[(['a', '.', 'w', 'a', 'v'], .audio 5), (stdP, .audio 7)],
       []⟩, 0, []⟩
     st.fs.fileAt stdP = some (.audio 7) ∧
     (standardize_audio st ['a', '.', 'w', 'a', 'v']).2.fs.fileAt stdP
        = some (.audio 5)) := by
  constructor
  · decide
  · decide

theorem standardize_audio_of_audio (st : St) (p : Str) (d : Nat)
    (hfa : st.fs.fileAt p = some (.audio d)) :
    standardize_audio st p = (standardizedPathOf p,
      { st with fs := st.fs.writeFile (standardizedPathOf p) (.audio d) }) := by
  unfold standardize_audio
  rw [hfa]

theorem standardize_audio_fail (st : St) (p : Str)
    (hfa : ∀ d, st.fs.fileAt p ≠ some (.audio d)) :
    standardize_audio st p = (p, st) := by
  unfold standardize_audio
  cases hx : st.fs.fileAt p with
  | none => rfl
  | some c =>
    cases c with
    | audio d => exact absurd hx (hfa d)
    | text s => rfl

theorem split_audio_of_audio (st : St) (p : Str) (d L : Nat)
    (hfa : st.fs.fileAt p = some (.audio d)) (hL : L ≠ 0) :
    split_audio st p L = ((splitGo p L d st.fs (pyRange 0 d L)).1,
      { st with fs := (splitGo p L d st.fs (pyRange 0 d L)).2 }) := by
  unfold split_audio
  rw [hfa]
  show (if L = 0 then ([p], st) else ((splitGo p L d st.fs (pyRange 0 d L)).1,
    { st with fs := (splitGo p L d st.fs (pyRange 0 d L)).2 })) = _
  rw [if_neg hL]

theorem split_audio_fail (st : St) (p : Str) (L : Nat)
    (hfa : ∀ d, st.fs.fileAt p ≠ some (.audio d)) :
    split_audio st p L = ([p], st) := by
  unfold split_audio
  cases hx : st.fs.fileAt p with
  | none => rfl
  | some c =>
    cases c with
    | audio d => exact absurd hx (hfa d)
    | text s => rfl

/-- **C9 (amended)**: for every input path containing `".wav"`, neither
`standardize_audio` nor `split_audio` ever writes to the input path itself
(the input artifact's content is preserved, and the derived standardized
path and every chunk path of a decodable input differ from the input);
other pre-existing artifacts at the derived paths may be overwritten. -/
theorem claim_C9_amended_no_input_overwrite (st : St) (p : Str) (L : Nat)
    (hwav : containsSub p ".wav".data = true) :
    (standardize_audio st p).2.fs.fileAt p = st.fs.fileAt p ∧
    (split_audio st p L).2.fs.fileAt p = st.fs.fileAt p ∧
    (∀ d, st.fs.fileAt p = some (.audio d) → (standardize_audio st p).1 ≠ p) ∧
    (∀ d, st.fs.fileAt p = some (.audio d) → 0 < L →
      ∀ cp ∈ (split_audio st p L).1, cp ≠ p) := by
  have hne : standardizedPathOf p ≠ p := by
    intro heq
    have hg := pyReplaceL_grow ".wav".data "_standardized.wav".data (by decide)
      (by decide) p.length p le_rfl hwav
    rw [show pyReplaceL p ".wav".data "_standardized.wav".data
        = standardizedPathOf p from rfl, heq] at hg
    omega
  refine ⟨?_, ?_, ?_, ?_⟩
  · cases hfa : st.fs.fileAt p with
    | some c =>
      cases c with
      | audio d =>
        rw [standardize_audio_of_audio st p d hfa]
        show (st.fs.writeFile (standardizedPathOf p) (.audio d)).fileAt p
          = some (.audio d)
        rw [fileAt_writeFile_ne st.fs _ p (.audio d) (fun he => hne he.symm), hfa]
      | text s2 =>
        rw [standardize_audio_fail st p (by simp [hfa])]
        exact hfa
    | none =>
      rw [standardize_audio_fail st p (by simp [hfa])]
      exact hfa
  · cases hfa : st.fs.fileAt p with
    | some c =>
      cases c with
      | audio d =>
        by_cases hL : L = 0
        · subst hL
          unfold split_audio
          rw [hfa]
          exact hfa
        · rw [split_audio_of_audio st p d L hfa hL]
          show (splitGo p L d st.fs (pyRange 0 d L)).2.fileAt p = some (.audio d)
          rw [splitGo_fileAt_preserved p L d (pyRange 0 d L) st.fs]
          exact hfa
      | text s2 =>
        rw [split_audio_fail st p L (by simp [hfa])]
        exact hfa
    | none =>
      rw [split_audio_fail st p L (by simp [hfa])]
      exact hfa
  · intro d hfa
    rw [standardize_audio_of_audio st p d hfa]
    exact hne
  · intro d hfa hL cp hcp
    rw [split_audio_of_audio st p d L hfa (by omega)] at hcp
    simp only [splitGo_chunks] at hcp
    obtain ⟨i, _, rfl⟩ := List.mem_map.mp hcp
    exact chunkPathOf_ne p L i

theorem claim_C9_amended_witness :
    (let st : St := ⟨⟨[(['a', '.', 'w', 'a', 'v'], .audio 5)], []⟩, 0, []⟩
     let p : Str := ['a', '.', 'w', 'a', 'v']
     (standardize_audio st p).2.fs.fileAt p = st.fs.fileAt p ∧
     (split_audio st p 60000).2.fs.fileAt p = st.fs.fileAt p ∧
     (∀ d, st.fs.fileAt p = some (.audio d) → (standardize_audio st p).1 ≠ p) ∧
     (∀ d, st.fs.fileAt p = some (.audio d) → 0 < 60000 →
       ∀ cp ∈ (split_audio st p 60000).1, cp ≠ p)) :=
  claim_C9_amended_no_input_overwrite _ _ 60000 (by decide)

theorem ledgerMem_append_left (l t : Ledger) (k : Str) (h : ledgerMem l k = true) :
    ledgerMem (l ++ t) k = true := by
  simp only [ledgerMem, List.any_append, Bool.or_eq_true]
  exact Or.inl h

theorem ledgerGet_append_left (l t : Ledger) (k : Str) (h : ledgerMem l k = true) :
    ledgerGet (l ++ t) k = ledgerGet l k := by
  induction l with
  | nil => simp [ledgerMem] at h
  | cons kv rest ih =>
    by_cases hk : kv.1 = k
    · unfold ledgerGet
      rw [List.cons_append, List.find?_cons_of_pos _ (by simp [hk]),
        List.find?_cons_of_pos _ (by simp [hk])]
    · simp only [ledgerMem, List.any_cons, Bool.or_eq_true, decide_eq_true_eq] at h
      rcases h with h | h
      · exact absurd h hk
      · unfold ledgerGet
        rw [List.cons_append, List.find?_cons_of_neg _ (by simp [hk]),
          List.find?_cons_of_neg _ (by simp [hk])]
        have h2 := ih h
        unfold ledgerGet at h2
        exact h2

theorem ledgerInsert_of_not_mem (l : Ledger) (b : Str) (v : Option Str)
    (hb : ledgerMem l b = false) : ledgerInsert l b v = l ++ [(b, v)] := by
  simp [ledgerInsert, hb]

theorem ledgerMem_insert_preserve (l : Ledger) (b k : Str) (v : Option Str)
    (hb : ledgerMem l b = false) (hk : ledgerMem l k = true) :
    ledgerMem (ledgerInsert l b v) k = true := by
  rw [ledgerInsert_of_not_mem l b v hb]
  exact ledgerMem_append_left l _ k hk

theorem ledgerGet_insert_preserve (l : Ledger) (b k : Str) (v : Option Str)
    (hb : ledgerMem l b = false) (hk : ledgerMem l k = true) :
    ledgerGet (ledgerInsert l b v) k = ledgerGet l k := by
  rw [ledgerInsert_of_not_mem l b v hb]
  exact ledgerGet_append_left l _ k hk

/-- Events added by a state transition are only recognizer calls. -/
def evCallsOnly (st st' : St) : Prop :=
  ∀ e ∈ st'.events, e ∈ st.events ∨ ∃ q, e = Event.recognizerCall q

theorem evCallsOnly_rfl (st : St) : evCallsOnly st st := fun e he => Or.inl he

theorem evCallsOnly_trans {a b c : St} (h1 : evCallsOnly a b) (h2 : evCallsOnly b c) :
    evCallsOnly a c := by
  intro e he
  rcases h2 e he with h | h
  · exact h1 e h
  · exact Or.inr h

theorem retryGo_callsOnly (env : Env) (p : Str) :
    ∀ (rem : Nat) (st : St) (r : Option Str) (st' : St),
      transcribeRetryGo env p st rem = .ok (r, st') → evCallsOnly st st' := by
  intro rem
  induction rem with
  | zero =>
    intro st r st' h
    simp only [transcribeRetryGo] at h
    injection h with h
    injection h with _ h2
    subst h2
    exact evCallsOnly_rfl st
  | succ rem ih =>
    intro st r st' h
    simp only [transcribeRetryGo] at h
    cases hfa : st.fs.fileAt p with
    | none => rw [hfa] at h; exact absurd h (by simp)
    | some c =>
      rw [hfa] at h
      cases c with
      | text s => exact absurd h (by simp)
      | audio d =>
        cases ho : env.oracle st.calls with
        | success t =>
          rw [ho] at h
          injection h with h
          injection h with _ h2
          subst h2
          intro e he
          rcases List.mem_cons.mp he with rfl | he2
          · exact Or.inr ⟨p, rfl⟩
          · exact Or.inl he2
        | unknownValue =>
          rw [ho] at h
          injection h with h
          injection h with _ h2
          subst h2
          intro e he
          rcases List.mem_cons.mp he with rfl | he2
          · exact Or.inr ⟨p, rfl⟩
          · exact Or.inl he2
        | requestError =>
          rw [ho] at h
          have step := ih _ r st' h
          refine evCallsOnly_trans ?_ step
          intro e he
          rcases List.mem_cons.mp he with rfl | he2
          · exact Or.inr ⟨p, rfl⟩
          · exact Or.inl he2

theorem standardize_events (st : St) (p : Str) :
    (standardize_audio st p).2.events = st.events := by
  cases hfa : st.fs.fileAt p with
  | some c =>
    cases c with
    | audio d => rw [standardize_audio_of_audio st p d hfa]
    | text s2 => rw [standardize_audio_fail st p (by simp [hfa])]
  | none => rw [standardize_audio_fail st p (by simp [hfa])]

theorem split_events (st : St) (p : Str) (L : Nat) :
    (split_audio st p L).2.events = st.events := by
  cases hfa : st.fs.fileAt p with
  | some c =>
    cases c with
    | audio d =>
      by_cases hL : L = 0
      · subst hL
        unfold split_audio
        rw [hfa]
        rfl
      · rw [split_audio_of_audio st p d L hfa hL]
    | text s2 => rw [split_audio_fail st p L (by simp [hfa])]
  | none => rw [split_audio_fail st p L (by simp [hfa])]

theorem chunkLoop_callsOnly (env : Env) :
    ∀ (chunks : List Str) (st : St) (r : List Str) (st' : St),
      chunkLoop env st chunks = .ok (r, st') → evCallsOnly st st' := by
  intro chunks
  induction chunks with
  | nil =>
    intro st r st' h
    simp only [chunkLoop] at h
    injection h with h
    injection h with _ h2
    subst h2
    exact evCallsOnly_rfl st
  | cons c rest ih =>
    intro st r st' h
    simp only [chunkLoop] at h
    cases hx : transcribe_with_retry env st c with
    | error e => rw [hx] at h; exact absurd h (by simp [Bind.bind, Except.bind])
    | ok pr =>
      obtain ⟨r1, st1⟩ := pr
      rw [hx] at h
      simp only [Bind.bind, Except.bind] at h
      cases hy : chunkLoop env st1 rest with
      | error e => rw [hy] at h; exact absurd h (by simp)
      | ok pr2 =>
        obtain ⟨ts, st2⟩ := pr2
        rw [hy] at h
        have h12 : evCallsOnly st st1 := retryGo_callsOnly env c _ st r1 st1 hx
        have h23 : evCallsOnly st1 st2 := ih st1 ts st2 hy
        have hst : st' = st2 := by
          cases r1 with
          | none =>
            replace h : Except.ok (ts, st2) = Except.ok (r, st') := h
            injection h with h
            injection h with _ h2
            exact h2.symm
          | some t =>
            replace h : (if t = [] then Except.ok (ts, st2)
                else Except.ok (t :: ts, st2)) = Except.ok (r, st') := h
            by_cases ht : t = []
            · rw [if_pos ht] at h
              injection h with h
              injection h with _ h2
              exact h2.symm
            · rw [if_neg ht] at h
              injection h with h
              injection h with _ h2
              exact h2.symm
        subst hst
        exact evCallsOnly_trans h12 h23

theorem transcribe_audio_eq (env : Env) (st : St) (p : Str) :
    transcribe_audio env st p =
      (chunkLoop env
          (split_audio (standardize_audio st p).2 (standardize_audio st p).1).2
          (split_audio (standardize_audio st p).2 (standardize_audio st p).1).1).bind
        (fun pr => match pr.1 with
          | [] => Except.ok (none, pr.2)
          | _ => Except.ok (some (List.intercalate [' '] pr.1), pr.2)) := rfl

theorem transcribe_audio_callsOnly (env : Env) (st : St) (p : Str)
    (r : Option Str) (st' : St) (h : transcribe_audio env st p = .ok (r, st')) :
    evCallsOnly st st' := by
  rw [transcribe_audio_eq] at h
  rcases hs : standardize_audio st p with ⟨sp, st1⟩
  rw [hs] at h
  dsimp only at h
  rcases hp : split_audio st1 sp with ⟨chunks, st2⟩
  rw [hp] at h
  dsimp only at h
  simp only [Bind.bind, Except.bind] at h
  cases hy : chunkLoop env st2 chunks with
  | error e => rw [hy] at h; exact absurd h (by simp)
  | ok pr =>
    obtain ⟨ts, st3⟩ := pr
    rw [hy] at h
    have hev1 : st1.events = st.events := by
      have := standardize_events st p
      rw [hs] at this
      exact this
    have hev2 : st2.events = st1.events := by
      have := split_events st1 sp 60000
      rw [hp] at this
      exact this
    have h23 : evCallsOnly st2 st3 := chunkLoop_callsOnly env chunks st2 ts st3 hy
    have hst : st' = st3 := by
      cases ts with
      | nil =>
        replace h : Except.ok ((none : Option Str), st3) = Except.ok (r, st') := h
        injection h with h
        injection h with _ h2
        exact h2.symm
      | cons a b =>
        replace h : Except.ok (some (List.intercalate [' '] (a :: b)), st3)
            = Except.ok (r, st') := h
        injection h with h
        injection h with _ h2
        exact h2.symm
    subst hst
    intro e he
    rcases h23 e he with h' | h'
    · rw [hev2, hev1] at h'
      exact Or.inl h'
    · exact Or.inr h'

/-- No conversion or transcription event for base name `k` is added. -/
def evSpares (st st' : St) (k : Str) : Prop :=
  ∀ e ∈ st'.events, e ∈ st.events ∨
    (e ≠ Event.convertAttempt k ∧ e ≠ Event.transcribeAttempt k)

theorem evSpares_rfl (st : St) (k : Str) : evSpares st st k := fun e he => Or.inl he

theorem evSpares_trans {a b c : St} {k : Str} (h1 : evSpares a b k)
    (h2 : evSpares b c k) : evSpares a c k := by
  intro e he
  rcases h2 e he with h | h
  · exact h1 e h
  · exact Or.inr h

theorem evSpares_of_callsOnly {a b : St} (k : Str) (h : evCallsOnly a b) :
    evSpares a b k := by
  intro e he
  rcases h e he with h' | ⟨q, rfl⟩
  · exact Or.inl h'
  · exact Or.inr ⟨by simp, by simp⟩

theorem wavLoop_preserves (env : Env) (folder : Str) (k : Str) :
    ∀ (names : List Str) (st : St) (ledger : Ledger) (res : Ledger × St),
      ledgerMem ledger k = true →
      wavLoop env st ledger folder names = .ok res →
      ledgerGet res.1 k = ledgerGet ledger k ∧ ledgerMem res.1 k = true ∧
      evSpares st res.2 k := by
  intro names
  induction names with
  | nil =>
    intro st ledger res hmem h
    simp only [wavLoop] at h
    injection h with h
    subst h
    exact ⟨rfl, hmem, evSpares_rfl st k⟩
  | cons name rest ih =>
    intro st ledger res hmem h
    simp only [wavLoop] at h
    by_cases hb : ledgerMem ledger (splitextBase name) = true
    · rw [if_pos hb] at h
      exact ih st ledger res hmem h
    · rw [if_neg hb] at h
      have hbk : splitextBase name ≠ k := by
        intro he
        rw [he] at hb
        exact hb hmem
      simp only [Bind.bind, Except.bind] at h
      cases hx : transcribe_audio env
          { st with events := Event.transcribeAttempt (splitextBase name) :: st.events }
          (pathJoin folder name) with
      | error e => rw [hx] at h; exact absurd h (by simp)
      | ok pr =>
        obtain ⟨r2, st2⟩ := pr
        rw [hx] at h
        have hrec := ih st2 (ledgerInsert ledger (splitextBase name) r2) res
          (ledgerMem_insert_preserve ledger (splitextBase name) k r2
            (by simpa using hb) hmem) h
        refine ⟨?_, hrec.2.1, ?_⟩
        · rw [hrec.1]
          exact ledgerGet_insert_preserve ledger (splitextBase name) k r2
            (by simpa using hb) hmem
        · have hco := transcribe_audio_callsOnly env _ _ r2 st2 hx
          refine evSpares_trans (b := st2) ?_ hrec.2.2
          intro e he
          rcases hco e he with h' | ⟨q, rfl⟩
          · rcases List.mem_cons.mp h' with rfl | h''
            · exact Or.inr ⟨by simp, by simp [hbk]⟩
            · exact Or.inl h''
          · exact Or.inr ⟨by simp, by simp⟩

theorem evSpares_of_events_eq {a b : St} (k : Str) (h : b.events = a.events) :
    evSpares a b k := by
  intro e he
  rw [h] at he
  exact Or.inl he

theorem folderLoop_preserves (env : Env) (out : Str) (k : Str) :
    ∀ (names : List Str) (st : St) (ledger : Ledger) (res : Ledger × St),
      ledgerMem ledger k = true →
      folderLoop env st ledger out names = .ok res →
      ledgerGet res.1 k = ledgerGet ledger k ∧ ledgerMem res.1 k = true ∧
      evSpares st res.2 k := by
  intro names
  induction names with
  | nil =>
    intro st ledger res hmem h
    simp only [folderLoop] at h
    injection h with h
    subst h
    exact ⟨rfl, hmem, evSpares_rfl st k⟩
  | cons fname rest ih =>
    intro st ledger res hmem h
    simp only [folderLoop] at h
    by_cases hd : st.fs.isDir (pathJoin out fname) = true
    · rw [if_neg (by simp [hd])] at h
      simp only [Bind.bind, Except.bind] at h
      cases hx : wavLoop env st ledger (pathJoin out fname)
          (((st.fs.listdir (pathJoin out fname)).getD []).filter
            (fun n => endsWithL n ".wav".data)) with
      | error e => rw [hx] at h; exact absurd h (by simp)
      | ok pr =>
        obtain ⟨tr1, st1⟩ := pr
        rw [hx] at h
        have hw := wavLoop_preserves env (pathJoin out fname) k _ st ledger (tr1, st1)
          hmem hx
        have hrec := ih st1 tr1 res hw.2.1 h
        exact ⟨hrec.1.trans hw.1, hrec.2.1, evSpares_trans hw.2.2 hrec.2.2⟩
    · rw [if_pos (by simp [hd])] at h
      exact ih st ledger res hmem h

theorem convertLoop_events (input out : Str) (ledger : Ledger) :
    ∀ (names : List Str) (st : St),
      ∀ e ∈ (convertLoop st input out ledger names).events,
        e ∈ st.events ∨
        ∃ b, e = Event.convertAttempt b ∧ ledgerMem ledger b = false := by
  intro names
  induction names with
  | nil => intro st e he; exact Or.inl he
  | cons name rest ih =>
    intro st e he
    simp only [convertLoop] at he
    by_cases hmem : ledgerMem ledger (splitextBase name) = true
    · rw [if_pos hmem] at he
      exact ih st e he
    · rw [if_neg hmem] at he
      by_cases hex : (if ¬ st.fs.pathExists (pathJoin out (splitextBase name)) = true
          then { st with fs := st.fs.makedirs (pathJoin out (splitextBase name)) }
          else st).fs.pathExists
            (pathJoin (pathJoin out (splitextBase name))
              (splitextBase name ++ ".wav".data)) = true
      · rw [if_pos hex] at he
        rcases ih _ e he with h | h
        · by_cases hfo : st.fs.pathExists (pathJoin out (splitextBase name)) = true
          · rw [if_neg (by simp [hfo])] at h
            exact Or.inl h
          · rw [if_pos (by simp [hfo])] at h
            exact Or.inl h
        · exact Or.inr h
      · rw [if_neg hex] at he
        rcases ih _ e he with h | h
        · by_cases hfa : True
          · -- the state before the recursive call adds the convertAttempt event
            revert h
            cases hdec : (if ¬ st.fs.pathExists (pathJoin out (splitextBase name)) = true
                then { st with fs := st.fs.makedirs (pathJoin out (splitextBase name)) }
                else st).fs.fileAt (pathJoin input name) with
            | none =>
              intro h
              rcases List.mem_cons.mp h with rfl | h2
              · exact Or.inr ⟨splitextBase name, rfl, by simpa using hmem⟩
              · by_cases hfo : st.fs.pathExists (pathJoin out (splitextBase name)) = true
                · rw [if_neg (by simp [hfo])] at h2
                  exact Or.inl h2
                · rw [if_pos (by simp [hfo])] at h2
                  exact Or.inl h2
            | some c =>
              cases c with
              | audio d =>
                intro h
                rcases List.mem_cons.mp h with rfl | h2
                · exact Or.inr ⟨splitextBase name, rfl, by simpa using hmem⟩
                · by_cases hfo : st.fs.pathExists (pathJoin out (splitextBase name)) = true
                  · rw [if_neg (by simp [hfo])] at h2
                    exact Or.inl h2
                  · rw [if_pos (by simp [hfo])] at h2
                    exact Or.inl h2
              | text s2 =>
                intro h
                rcases List.mem_cons.mp h with rfl | h2
                · exact Or.inr ⟨splitextBase name, rfl, by simpa using hmem⟩
                · by_cases hfo : st.fs.pathExists (pathJoin out (splitextBase name)) = true
                  · rw [if_neg (by simp [hfo])] at h2
                    exact Or.inl h2
                  · rw [if_pos (by simp [hfo])] at h2
                    exact Or.inl h2
          · exact absurd trivial hfa
        · exact Or.inr h

theorem convert_preserves (st : St) (input out : Str) (ledger : Ledger) (k : Str)
    (st1 : St) (hmem : ledgerMem ledger k = true)
    (h : convert_aac_to_wav st input out ledger = .ok st1) : evSpares st st1 k := by
  unfold convert_aac_to_wav at h
  by_cases hex : st.fs.pathExists input = true
  · rw [if_neg (by simp [hex])] at h
    cases hl : st.fs.listdir input with
    | none => rw [hl] at h; exact absurd h (by simp)
    | some names =>
      rw [hl] at h
      replace h : (if (names.filter (fun n => endsWithL n ".aac".data)).isEmpty = true
          then Except.ok st
          else Except.ok (convertLoop st input out ledger
            (names.filter (fun n => endsWithL n ".aac".data)))) = Except.ok st1 := h
      by_cases hisE : (names.filter (fun n => endsWithL n ".aac".data)).isEmpty = true
      · rw [if_pos hisE] at h
        injection h with h
        subst h
        exact evSpares_rfl st k
      · rw [if_neg hisE] at h
        injection h with h
        subst h
        intro e he
        rcases convertLoop_events input out ledger _ st e he with h' | ⟨b, rfl, hb⟩
        · exact Or.inl h'
        · refine Or.inr ⟨?_, by simp⟩
          simp only [ne_eq, Event.convertAttempt.injEq]
          intro hbk
          rw [hbk] at hb
          rw [hmem] at hb
          simp at hb
  · rw [if_pos (by simp [hex])] at h
    injection h with h
    subst h
    exact evSpares_rfl st k

theorem save_events (st : St) (m : Ledger) (p : Str) :
    (save_transcriptions_to_json st m p).events = st.events := rfl

theorem load_after_save (st : St) (m : Ledger) (path : Str) :
    load_existing_transcriptions ((save_transcriptions_to_json st m path).fs) path
      = m := by
  have hlo : loadOutcome ((save_transcriptions_to_json st m path).fs) path
      = LoadOutcome.dict m := by
    unfold loadOutcome save_transcriptions_to_json
    rw [if_pos (by simp [FS.pathExists, fileAt_writeFile_self])]
    simp only [fileAt_writeFile_self, parseLedger_render]
  unfold load_existing_transcriptions
  rw [hlo]

/-! ### Event-trace deltas

The pipeline only ever prepends events, so a run from `st` to `st'`
determines a prefix `newE` with `st'.events = newE ++ st.events`.  The
delta predicates pin down what that prefix may contain, which — unlike
mere membership — expresses "the run itself attempted nothing for `k`"
even when `st.events` already holds attempts for `k` from earlier runs. -/

/-- The run prepends only recognition-call events. -/
def evCallsDelta (st st' : St) : Prop :=
  ∃ newE, st'.events = newE ++ st.events ∧ ∀ e ∈ newE, ∃ q, e = Event.recognizerCall q

theorem evCallsDelta_rfl (st : St) : evCallsDelta st st := ⟨[], rfl, by simp⟩

theorem evCallsDelta_trans {a b c : St} (h1 : evCallsDelta a b)
    (h2 : evCallsDelta b c) : evCallsDelta a c := by
  obtain ⟨n1, he1, hp1⟩ := h1
  obtain ⟨n2, he2, hp2⟩ := h2
  refine ⟨n2 ++ n1, ?_, ?_⟩
  · rw [he2, he1, List.append_assoc]
  · intro e he
    rcases List.mem_append.mp he with h | h
    · exact hp2 e h
    · exact hp1 e h

theorem evCallsDelta_bump (st st' : St) (p : Str)
    (h : st'.events = Event.recognizerCall p :: st.events) : evCallsDelta st st' :=
  ⟨[Event.recognizerCall p], h, fun _ he => ⟨p, List.mem_singleton.mp he⟩⟩

/-- The run prepends no conversion or transcription attempt for `k`. -/
def evDelta (st st' : St) (k : Str) : Prop :=
  ∃ newE, st'.events = newE ++ st.events ∧
    ∀ e ∈ newE, e ≠ Event.convertAttempt k ∧ e ≠ Event.transcribeAttempt k

theorem evDelta_rfl (st : St) (k : Str) : evDelta st st k := ⟨[], rfl, by simp⟩

theorem evDelta_trans {a b c : St} {k : Str} (h1 : evDelta a b k)
    (h2 : evDelta b c k) : evDelta a c k := by
  obtain ⟨n1, he1, hp1⟩ := h1
  obtain ⟨n2, he2, hp2⟩ := h2
  refine ⟨n2 ++ n1, ?_, ?_⟩
  · rw [he2, he1, List.append_assoc]
  · intro e he
    rcases List.mem_append.mp he with h | h
    · exact hp2 e h
    · exact hp1 e h

theorem evDelta_of_events_eq {a b : St} (k : Str) (h : b.events = a.events) :
    evDelta a b k := ⟨[], by simp [h], by simp⟩

theorem evDelta_of_callsDelta {a b : St} (k : Str) (h : evCallsDelta a b) :
    evDelta a b k := by
  obtain ⟨n, he, hp⟩ := h
  refine ⟨n, he, fun e hme => ?_⟩
  obtain ⟨q, rfl⟩ := hp e hme
  exact ⟨by simp, by simp⟩

theorem retryGo_callsDelta (env : Env) (p : Str) :
    ∀ (rem : Nat) (st : St) (r : Option Str) (st' : St),
      transcribeRetryGo env p st rem = .ok (r, st') → evCallsDelta st st' := by
  intro rem
  induction rem with
  | zero =>
    intro st r st' h
    simp only [transcribeRetryGo] at h
    injection h with h
    injection h with _ h2
    subst h2
    exact evCallsDelta_rfl st
  | succ rem ih =>
    intro st r st' h
    simp only [transcribeRetryGo] at h
    cases hfa : st.fs.fileAt p with
    | none => rw [hfa] at h; exact absurd h (by simp)
    | some c =>
      rw [hfa] at h
      cases c with
      | text s => exact absurd h (by simp)
      | audio d =>
        cases ho : env.oracle st.calls with
        | success t =>
          rw [ho] at h
          injection h with h
          injection h with _ h2
          subst h2
          exact evCallsDelta_bump st _ p rfl
        | unknownValue =>
          rw [ho] at h
          injection h with h
          injection h with _ h2
          subst h2
          exact evCallsDelta_bump st _ p rfl
        | requestError =>
          rw [ho] at h
          exact evCallsDelta_trans (evCallsDelta_bump st _ p rfl) (ih _ r st' h)

theorem chunkLoop_callsDelta (env : Env) :
    ∀ (chunks : List Str) (st : St) (r : List Str) (st' : St),
      chunkLoop env st chunks = .ok (r, st') → evCallsDelta st st' := by
  intro chunks
  induction chunks with
  | nil =>
    intro st r st' h
    simp only [chunkLoop] at h
    injection h with h
    injection h with _ h2
    subst h2
    exact evCallsDelta_rfl st
  | cons c rest ih =>
    intro st r st' h
    simp only [chunkLoop] at h
    cases hx : transcribe_with_retry env st c with
    | error e => rw [hx] at h; exact absurd h (by simp [Bind.bind, Except.bind])
    | ok pr =>
      obtain ⟨r1, st1⟩ := pr
      rw [hx] at h
      simp only [Bind.bind, Except.bind] at h
      cases hy : chunkLoop env st1 rest with
      | error e => rw [hy] at h; exact absurd h (by simp)
      | ok pr2 =>
        obtain ⟨ts, st2⟩ := pr2
        rw [hy] at h
        have h12 : evCallsDelta st st1 := retryGo_callsDelta env c _ st r1 st1 hx
        have h23 : evCallsDelta st1 st2 := ih st1 ts st2 hy
        have hst : st' = st2 := by
          cases r1 with
          | none =>
            replace h : Except.ok (ts, st2) = Except.ok (r, st') := h
            injection h with h
            injection h with _ h2
            exact h2.symm
          | some t =>
            replace h : (if t = [] then Except.ok (ts, st2)
                else Except.ok (t :: ts, st2)) = Except.ok (r, st') := h
            by_cases ht : t = []
            · rw [if_pos ht] at h
              injection h with h
              injection h with _ h2
              exact h2.symm
            · rw [if_neg ht] at h
              injection h with h
              injection h with _ h2
              exact h2.symm
        subst hst
        exact evCallsDelta_trans h12 h23

theorem transcribe_audio_callsDelta (env : Env) (st : St) (p : Str)
    (r : Option Str) (st' : St) (h : transcribe_audio env st p = .ok (r, st')) :
    evCallsDelta st st' := by
  rw [transcribe_audio_eq] at h
  rcases hs : standardize_audio st p with ⟨sp, st1⟩
  rw [hs] at h
  dsimp only at h
  rcases hp : split_audio st1 sp with ⟨chunks, st2⟩
  rw [hp] at h
  dsimp only at h
  simp only [Bind.bind, Except.bind] at h
  cases hy : chunkLoop env st2 chunks with
  | error e => rw [hy] at h; exact absurd h (by simp)
  | ok pr =>
    obtain ⟨ts, st3⟩ := pr
    rw [hy] at h
    have hev1 : st1.events = st.events := by
      have := standardize_events st p
      rw [hs] at this
      exact this
    have hev2 : st2.events = st1.events := by
      have := split_events st1 sp 60000
      rw [hp] at this
      exact this
    have h23 : evCallsDelta st2 st3 := chunkLoop_callsDelta env chunks st2 ts st3 hy
    have hst : st' = st3 := by
      cases ts with
      | nil =>
        replace h : Except.ok ((none : Option Str), st3) = Except.ok (r, st') := h
        injection h with h
        injection h with _ h2
        exact h2.symm
      | cons a b =>
        replace h : Except.ok (some (List.intercalate [' '] (a :: b)), st3)
            = Except.ok (r, st') := h
        injection h with h
        injection h with _ h2
        exact h2.symm
    subst hst
    obtain ⟨n, he3, hpr⟩ := h23
    exact ⟨n, by rw [he3, hev2, hev1], hpr⟩

theorem wavLoop_delta (env : Env) (folder : Str) (k : Str) :
    ∀ (names : List Str) (st : St) (ledger : Ledger) (res : Ledger × St),
      ledgerMem ledger k = true →
      wavLoop env st ledger folder names = .ok res →
      evDelta st res.2 k := by
  intro names
  induction names with
  | nil =>
    intro st ledger res hmem h
    simp only [wavLoop] at h
    injection h with h
    subst h
    exact evDelta_rfl st k
  | cons name rest ih =>
    intro st ledger res hmem h
    simp only [wavLoop] at h
    by_cases hb : ledgerMem ledger (splitextBase name) = true
    · rw [if_pos hb] at h
      exact ih st ledger res hmem h
    · rw [if_neg hb] at h
      have hbk : splitextBase name ≠ k := by
        intro he
        rw [he] at hb
        exact hb hmem
      simp only [Bind.bind, Except.bind] at h
      cases hx : transcribe_audio env
          { st with events := Event.transcribeAttempt (splitextBase name) :: st.events }
          (pathJoin folder name) with
      | error e => rw [hx] at h; exact absurd h (by simp)
      | ok pr =>
        obtain ⟨r2, st2⟩ := pr
        rw [hx] at h
        have hrec := ih st2 (ledgerInsert ledger (splitextBase name) r2) res
          (ledgerMem_insert_preserve ledger (splitextBase name) k r2
            (by simpa using hb) hmem) h
        have h01 : evDelta st
            { st with events := Event.transcribeAttempt (splitextBase name) :: st.events }
            k := by
          refine ⟨[Event.transcribeAttempt (splitextBase name)], rfl, fun e he => ?_⟩
          rw [List.mem_singleton.mp he]
          exact ⟨by simp, by simp [hbk]⟩
        have h12 := evDelta_of_callsDelta k
          (transcribe_audio_callsDelta env _ _ r2 st2 hx)
        exact evDelta_trans (evDelta_trans h01 h12) hrec

theorem folderLoop_delta (env : Env) (out : Str) (k : Str) :
    ∀ (names : List Str) (st : St) (ledger : Ledger) (res : Ledger × St),
      ledgerMem ledger k = true →
      folderLoop env st ledger out names = .ok res →
      evDelta st res.2 k := by
  intro names
  induction names with
  | nil =>
    intro st ledger res hmem h
    simp only [folderLoop] at h
    injection h with h
    subst h
    exact evDelta_rfl st k
  | cons fname rest ih =>
    intro st ledger res hmem h
    simp only [folderLoop] at h
    by_cases hd : st.fs.isDir (pathJoin out fname) = true
    · rw [if_neg (by simp [hd])] at h
      simp only [Bind.bind, Except.bind] at h
      cases hx : wavLoop env st ledger (pathJoin out fname)
          (((st.fs.listdir (pathJoin out fname)).getD []).filter
            (fun n => endsWithL n ".wav".data)) with
      | error e => rw [hx] at h; exact absurd h (by simp)
      | ok pr =>
        obtain ⟨tr1, st1⟩ := pr
        rw [hx] at h
        have hw := wavLoop_preserves env (pathJoin out fname) k _ st ledger (tr1, st1)
          hmem hx
        have hwd := wavLoop_delta env (pathJoin out fname) k _ st ledger (tr1, st1)
          hmem hx
        exact evDelta_trans hwd (ih st1 tr1 res hw.2.1 h)
    · rw [if_pos (by simp [hd])] at h
      exact ih st ledger res hmem h

theorem convertLoop_delta (input out : Str) (ledger : Ledger) :
    ∀ (names : List Str) (st : St),
      ∃ newE, (convertLoop st input out ledger names).events = newE ++ st.events ∧
        ∀ e ∈ newE, ∃ b, e = Event.convertAttempt b ∧ ledgerMem ledger b = false := by
  intro names
  induction names with
  | nil =>
    intro st
    exact ⟨[], rfl, by simp⟩
  | cons name rest ih =>
    intro st
    have hstep : ∀ st' : St, (∃ pre, st'.events = pre ++ st.events ∧
          ∀ e ∈ pre, ∃ b, e = Event.convertAttempt b ∧ ledgerMem ledger b = false) →
        ∃ newE, (convertLoop st' input out ledger rest).events = newE ++ st.events ∧
          ∀ e ∈ newE, ∃ b, e = Event.convertAttempt b ∧ ledgerMem ledger b = false := by
      intro st' hpre
      obtain ⟨pre, hpe, hpp⟩ := hpre
      obtain ⟨n1, he1, hp1⟩ := ih st'
      refine ⟨n1 ++ pre, ?_, ?_⟩
      · rw [he1, hpe, List.append_assoc]
      · intro e he
        rcases List.mem_append.mp he with hh | hh
        · exact hp1 e hh
        · exact hpp e hh
    simp only [convertLoop]
    by_cases hm : ledgerMem ledger (splitextBase name) = true
    · rw [if_pos hm]
      exact ih st
    · rw [if_neg hm]
      by_cases hfo : st.fs.pathExists (pathJoin out (splitextBase name)) = true
      · rw [if_neg (show ¬ (¬ st.fs.pathExists (pathJoin out (splitextBase name)) = true)
          from not_not_intro hfo)]
        by_cases hex : st.fs.pathExists (pathJoin (pathJoin out (splitextBase name))
            (splitextBase name ++ ".wav".data)) = true
        · rw [if_pos hex]
          exact ih st
        · rw [if_neg hex]
          cases hfa : st.fs.fileAt (pathJoin input name) with
          | none =>
            refine hstep _ ⟨[Event.convertAttempt (splitextBase name)], rfl, fun e he => ?_⟩
            rw [List.mem_singleton.mp he]
            exact ⟨splitextBase name, rfl, by simpa using hm⟩
          | some c =>
            cases c with
            | audio d =>
              refine hstep _ ⟨[Event.convertAttempt (splitextBase name)], rfl, fun e he => ?_⟩
              rw [List.mem_singleton.mp he]
              exact ⟨splitextBase name, rfl, by simpa using hm⟩
            | text s2 =>
              refine hstep _ ⟨[Event.convertAttempt (splitextBase name)], rfl, fun e he => ?_⟩
              rw [List.mem_singleton.mp he]
              exact ⟨splitextBase name, rfl, by simpa using hm⟩
      · rw [if_pos (show (¬ st.fs.pathExists (pathJoin out (splitextBase name)) = true)
          from hfo)]
        dsimp only
        by_cases hex : (st.fs.makedirs (pathJoin out (splitextBase name))).pathExists
            (pathJoin (pathJoin out (splitextBase name)) (splitextBase name ++ ".wav".data))
            = true
        · rw [if_pos hex]
          exact hstep _ ⟨[], rfl, by simp⟩
        · rw [if_neg hex]
          cases hfa : (st.fs.makedirs (pathJoin out (splitextBase name))).fileAt
              (pathJoin input name) with
          | none =>
            refine hstep _ ⟨[Event.convertAttempt (splitextBase name)], rfl, fun e he => ?_⟩
            rw [List.mem_singleton.mp he]
            exact ⟨splitextBase name, rfl, by simpa using hm⟩
          | some c =>
            cases c with
            | audio d =>
              refine hstep _ ⟨[Event.convertAttempt (splitextBase name)], rfl, fun e he => ?_⟩
              rw [List.mem_singleton.mp he]
              exact ⟨splitextBase name, rfl, by simpa using hm⟩
            | text s2 =>
              refine hstep _ ⟨[Event.convertAttempt (splitextBase name)], rfl, fun e he => ?_⟩
              rw [List.mem_singleton.mp he]
              exact ⟨splitextBase name, rfl, by simpa using hm⟩

theorem convert_delta (st : St) (input out : Str) (ledger : Ledger) (k : Str)
    (st1 : St) (hmem : ledgerMem ledger k = true)
    (h : convert_aac_to_wav st input out ledger = .ok st1) : evDelta st st1 k := by
  unfold convert_aac_to_wav at h
  by_cases hex : st.fs.pathExists input = true
  · rw [if_neg (by simp [hex])] at h
    cases hl : st.fs.listdir input with
    | none => rw [hl] at h; exact absurd h (by simp)
    | some names =>
      rw [hl] at h
      replace h : (if (names.filter (fun n => endsWithL n ".aac".data)).isEmpty = true
          then Except.ok st
          else Except.ok (convertLoop st input out ledger
            (names.filter (fun n => endsWithL n ".aac".data)))) = Except.ok st1 := h
      by_cases hisE : (names.filter (fun n => endsWithL n ".aac".data)).isEmpty = true
      · rw [if_pos hisE] at h
        injection h with h
        subst h
        exact evDelta_rfl st k
      · rw [if_neg hisE] at h
        injection h with h
        subst h
        obtain ⟨n, he, hp⟩ := convertLoop_delta input out ledger _ st
        refine ⟨n, he, fun e hme => ?_⟩
        obtain ⟨b, rfl, hb⟩ := hp e hme
        refine ⟨?_, by simp⟩
        simp only [ne_eq, Event.convertAttempt.injEq]
        intro hbk
        rw [hbk] at hb
        rw [hmem] at hb
        simp at hb
  · rw [if_pos (by simp [hex])] at h
    injection h with h
    subst h
    exact evDelta_rfl st k

theorem processFolder_delta (env : Env) (st : St) (input out lp : Str)
    (k : Str) (st' : St)
    (hmem : ledgerMem (load_existing_transcriptions st.fs lp) k = true)
    (hok : process_folder env st input out lp = .ok st') :
    evDelta st st' k := by
  unfold process_folder at hok
  split at hok
  · rename_i m hlo
    have hm : load_existing_transcriptions st.fs lp = m := by
      unfold load_existing_transcriptions
      rw [hlo]
    rw [hm] at hmem
    unfold processDict at hok
    simp only [Bind.bind, Except.bind] at hok
    split at hok
    · exact absurd hok (by simp)
    · rename_i st1 hc
      split at hok
      · exact absurd hok (by simp)
      · rename_i names hl
        split at hok
        · exact absurd hok (by simp)
        · rename_i pr hf
          injection hok with hok
          subst hok
          have hcd := convert_delta st input out _ k st1 hmem hc
          have hfd := folderLoop_delta env out k names st1 _ pr hmem hf
          refine evDelta_trans hcd (evDelta_trans hfd ?_)
          exact evDelta_of_events_eq k (save_events pr.2 pr.1 lp)
  · rename_i hlo
    have hm : load_existing_transcriptions st.fs lp = [] := by
      unfold load_existing_transcriptions
      rw [hlo]
    rw [hm] at hmem
    exact absurd hmem (by simp [ledgerMem])
  · rename_i v hlo
    have hm : load_existing_transcriptions st.fs lp = [] := by
      unfold load_existing_transcriptions
      rw [hlo]
    rw [hm] at hmem
    exact absurd hmem (by simp [ledgerMem])

theorem processFolder_preserves (env : Env) (st : St) (input out lp : Str)
    (k : Str) (st' : St)
    (hmem : ledgerMem (load_existing_transcriptions st.fs lp) k = true)
    (hok : process_folder env st input out lp = .ok st') :
    ledgerGet (load_existing_transcriptions st'.fs lp) k
      = ledgerGet (load_existing_transcriptions st.fs lp) k ∧
    evSpares st st' k := by
  unfold process_folder at hok
  split at hok
  · rename_i m hlo
    have hm : load_existing_transcriptions st.fs lp = m := by
      unfold load_existing_transcriptions
      rw [hlo]
    rw [hm] at hmem ⊢
    unfold processDict at hok
    simp only [Bind.bind, Except.bind] at hok
    split at hok
    · exact absurd hok (by simp)
    · rename_i st1 hc
      split at hok
      · exact absurd hok (by simp)
      · rename_i names hl
        split at hok
        · exact absurd hok (by simp)
        · rename_i pr hf
          injection hok with hok
          subst hok
          have hcp := convert_preserves st input out _ k st1 hmem hc
          have hfp := folderLoop_preserves env out k names st1 _ pr hmem hf
          refine ⟨?_, ?_⟩
          · rw [load_after_save]
            exact hfp.1
          · refine evSpares_trans hcp (evSpares_trans hfp.2.2 ?_)
            exact evSpares_of_events_eq k (save_events pr.2 pr.1 lp)
  · rename_i hlo
    have hm : load_existing_transcriptions st.fs lp = [] := by
      unfold load_existing_transcriptions
      rw [hlo]
    rw [hm] at hmem
    exact absurd hmem (by simp [ledgerMem])
  · rename_i v hlo
    have hm : load_existing_transcriptions st.fs lp = [] := by
      unfold load_existing_transcriptions
      rw [hlo]
    rw [hm] at hmem
    exact absurd hmem (by simp [ledgerMem])

/-- Extract the state of a successful run (used only to phrase concrete
witnesses). -/
def runResult (e : Except PyErr St) : St :=
  match e with
  | .ok s => s
  | .error _ => default

/-- Environment and states used to phrase concrete witnesses. -/
def envW : Env := ⟨fun _ => RecResult.requestError⟩

def stW2 : St :=
  ⟨⟨[(['l'], FileData.text (renderLedger [(['a'], none)])),
     (['o', '/', 'a', '/', 'a', '.', 'w', 'a', 'v'], FileData.audio 0)],
    [['o'], ['o', '/', 'a']]⟩, 0, []⟩

def stW2r : St := runResult (process_folder envW stW2 ['i'] ['o'] ['l'])

def stW0 : St :=
  ⟨⟨[(['o', '/', 'a', '/', 'a', '.', 'w', 'a', 'v'], FileData.audio 0)],
    [['o'], ['o', '/', 'a']]⟩, 0, []⟩

def stW1 : St := runResult (process_folder envW stW0 ['i'] ['o'] ['l'])

def stW1r : St := runResult (process_folder envW stW1 ['i'] ['o'] ['l'])

/-- **C2**: every base name keyed in the ledger before a run of
`process_folder` keeps its value after the run (even a null / "no result"
value), and the run attempts no conversion and no transcription for that
base name. -/
theorem claim_C2_keyed_names_untouched (env : Env) (st : St) (input out lp : Str)
    (k : Str) (st' : St)
    (hmem : ledgerMem (load_existing_transcriptions st.fs lp) k = true)
    (hok : process_folder env st input out lp = .ok st') :
    ledgerGet (load_existing_transcriptions st'.fs lp) k
      = ledgerGet (load_existing_transcriptions st.fs lp) k ∧
    evSpares st st' k :=
  processFolder_preserves env st input out lp k st' hmem hok

theorem claim_C2_witness :
    ledgerMem (load_existing_transcriptions stW2.fs ['l']) ['a'] = true ∧
    process_folder envW stW2 ['i'] ['o'] ['l'] = .ok stW2r ∧
    (ledgerGet (load_existing_transcriptions stW2r.fs ['l']) ['a']
       = ledgerGet (load_existing_transcriptions stW2.fs ['l']) ['a'] ∧
     evSpares stW2 stW2r ['a']) :=
  ⟨by decide, by decide,
   claim_C2_keyed_names_untouched envW stW2 ['i'] ['o'] ['l'] ['a'] stW2r
     (by decide) (by decide)⟩

/-- **C1 (counterexample)**: running `process_folder` twice on the same
inputs with no external change does not produce an identical ledger: the
first run leaves `a_standardized.wav` on disk, and the second run picks it
up as a new base name and adds a ledger key for it. -/
theorem claim_C1_counterexample :
    process_folder envW stW0 ['i'] ['o'] ['l'] = .ok stW1 ∧
    process_folder envW stW1 ['i'] ['o'] ['l'] = .ok stW1r ∧
    load_existing_transcriptions stW1r.fs ['l']
      ≠ load_existing_transcriptions stW1.fs ['l'] := by
  refine ⟨by decide, by decide, by decide⟩

/-- **C1 (amended)**: over two successful runs of `process_folder` on the same
inputs, the second run performs no conversion attempt and no transcription
attempt for any base name keyed after the first run — every event the second
run adds to the trace is distinct from such attempts — and keeps every such
key's value; the ledger may still differ, because auxiliary
standardized/chunk files written by the first run are picked up as new base
names by the second run. -/
theorem claim_C1_amended_two_runs (env1 env2 : Env) (st0 st1 st2 : St)
    (input out lp : Str)
    (h1 : process_folder env1 st0 input out lp = .ok st1)
    (h2 : process_folder env2 st1 input out lp = .ok st2) (k : Str)
    (hk : ledgerMem (load_existing_transcriptions st1.fs lp) k = true) :
    ledgerGet (load_existing_transcriptions st2.fs lp) k
      = ledgerGet (load_existing_transcriptions st1.fs lp) k ∧
    evDelta st1 st2 k :=
  ⟨(processFolder_preserves env2 st1 input out lp k st2 hk h2).1,
   processFolder_delta env2 st1 input out lp k st2 hk h2⟩

theorem claim_C1_amended_witness :
    process_folder envW stW0 ['i'] ['o'] ['l'] = .ok stW1 ∧
    process_folder envW stW1 ['i'] ['o'] ['l'] = .ok stW1r ∧
    ledgerMem (load_existing_transcriptions stW1.fs ['l']) ['a'] = true ∧
    (ledgerGet (load_existing_transcriptions stW1r.fs ['l']) ['a']
       = ledgerGet (load_existing_transcriptions stW1.fs ['l']) ['a'] ∧
     evDelta stW1 stW1r ['a']) :=
  ⟨by decide, by decide, by decide,
   claim_C1_amended_two_runs envW envW stW0 stW1 stW1r ['i'] ['o'] ['l']
     (by decide) (by decide) ['a'] (by decide)⟩

/-! ### C3: when `process_folder` cannot raise -/

/-- Every file whose path ends in `".wav"` holds decodable audio. -/
def WavInv (fs : FS) : Prop :=
  ∀ p d, fs.fileAt p = some d → endsWithL p ".wav".data = true →
    ∃ n, d = FileData.audio n

/-- No directory nested two or more levels below `out` has a final path
component ending in `".wav"`. -/
def NoWavDirs (out : Str) (fs : FS) : Prop :=
  ∀ q ∈ fs.dirs, ∀ f n, q = pathJoin (pathJoin out f) n →
    endsWithL n ".wav".data = false

/-- `fs'` extends `fs` by creating or overwriting audio files only, with
the directory set unchanged. -/
def AudioExtends (fs fs' : FS) : Prop :=
  fs'.dirs = fs.dirs ∧
  (∀ q d, fs.fileAt q = some (.audio d) → ∃ n, fs'.fileAt q = some (.audio n)) ∧
  (∀ q d, fs'.fileAt q = some d → fs.fileAt q = some d ∨ ∃ n, d = FileData.audio n)

theorem audioExtends_rfl (fs : FS) : AudioExtends fs fs :=
  ⟨rfl, fun _ d h => ⟨d, h⟩, fun _ _ h => Or.inl h⟩

theorem audioExtends_trans {a b c : FS} (h1 : AudioExtends a b)
    (h2 : AudioExtends b c) : AudioExtends a c := by
  refine ⟨h2.1.trans h1.1, ?_, ?_⟩
  · intro q d h
    obtain ⟨n, hn⟩ := h1.2.1 q d h
    exact h2.2.1 q n hn
  · intro q d h
    rcases h2.2.2 q d h with h' | h'
    · exact h1.2.2 q d h'
    · exact Or.inr h'

theorem audioExtends_write (fs : FS) (p : Str) (m : Nat) :
    AudioExtends fs (fs.writeFile p (.audio m)) := by
  refine ⟨rfl, ?_, ?_⟩
  · intro q d h
    by_cases hq : q = p
    · subst hq
      exact ⟨m, fileAt_writeFile_self fs q _⟩
    · refine ⟨d, ?_⟩
      rw [fileAt_writeFile_ne fs p q _ hq]
      exact h
  · intro q d h
    by_cases hq : q = p
    · subst hq
      rw [fileAt_writeFile_self] at h
      injection h with h
      exact Or.inr ⟨m, h.symm⟩
    · rw [fileAt_writeFile_ne fs p q _ hq] at h
      exact Or.inl h

theorem wavInv_of_audioExtends {fs fs' : FS} (h : WavInv fs)
    (he : AudioExtends fs fs') : WavInv fs' := by
  intro p d hp hw
  rcases he.2.2 p d hp with h' | h'
  · exact h p d h' hw
  · exact h'

theorem noWavDirs_of_audioExtends {out : Str} {fs fs' : FS} (h : NoWavDirs out fs)
    (he : AudioExtends fs fs') : NoWavDirs out fs' := by
  intro q hq f n hqe
  rw [he.1] at hq
  exact h q hq f n hqe

theorem isDir_of_audioExtends {fs fs' : FS} {p : Str} (h : fs.isDir p = true)
    (he : AudioExtends fs fs') : fs'.isDir p = true := by
  unfold FS.isDir at *
  rw [he.1]
  exact h

theorem fileAt_makedirs (fs : FS) (p q : Str) :
    (fs.makedirs p).fileAt q = fs.fileAt q := rfl

theorem isDir_makedirs (fs : FS) (p q : Str) (h : fs.isDir q = true) :
    (fs.makedirs p).isDir q = true := by
  unfold FS.isDir FS.makedirs at *
  simp only [List.any_append]
  simp [h]

theorem wavInv_makedirs (fs : FS) (p : Str) (h : WavInv fs) :
    WavInv (fs.makedirs p) := by
  intro q d hq hw
  rw [fileAt_makedirs] at hq
  exact h q d hq hw

theorem wavInv_write_audio (fs : FS) (p : Str) (m : Nat) (h : WavInv fs) :
    WavInv (fs.writeFile p (.audio m)) :=
  wavInv_of_audioExtends h (audioExtends_write fs p m)

/-- Every directory `os.makedirs` creates for `out ++ "/" ++ base` (with
`base` free of separators) is either no longer than `out` or equal to the
full path. -/
theorem dirPrefixes_shape (out base : Str) (hb : '/' ∉ base) :
    ∀ e ∈ dirPrefixes (pathJoin out base),
      e.length ≤ out.length ∨ e = pathJoin out base := by
  intro e he
  unfold dirPrefixes at he
  rcases List.mem_append.mp he with h | h
  · obtain ⟨i, hi, hsome⟩ := List.mem_filterMap.mp h
    by_cases hc : (pathJoin out base).get? i = some '/'
    · rw [if_pos hc] at hsome
      injection hsome with hsome
      subst hsome
      left
      have hile : i ≤ out.length := by
        by_contra hgt
        push_neg at hgt
        have hstep : (pathJoin out base).get? i = ('/' :: base).get? (i - out.length) := by
          unfold pathJoin
          rw [List.get?_append_right (by omega)]
        rw [hstep] at hc
        cases hio : i - out.length with
        | zero => omega
        | succ j =>
          rw [hio] at hc
          simp only [List.get?_cons_succ] at hc
          exact hb (List.get?_mem hc)
      calc ((pathJoin out base).take i).length ≤ i := by
            rw [List.length_take]; omega
        _ ≤ out.length := hile
    · rw [if_neg hc] at hsome
      exact absurd hsome (by simp)
  · right
    simpa using h

theorem noWavDirs_makedirs (out base : Str) (fs : FS) (hb : '/' ∉ base)
    (h : NoWavDirs out fs) : NoWavDirs out (fs.makedirs (pathJoin out base)) := by
  intro q hq f n hqe
  unfold FS.makedirs at hq
  simp only at hq
  rcases List.mem_append.mp hq with hnew | hold
  · exfalso
    rcases dirPrefixes_shape out base hb q hnew with hlen | heq
    · rw [hqe] at hlen
      unfold pathJoin at hlen
      simp only [List.length_append, List.length_cons] at hlen
      omega
    · rw [hqe] at heq
      unfold pathJoin at heq
      rw [List.append_assoc] at heq
      have h3 := List.append_cancel_left heq
      have h4 : f ++ '/' :: n = base := by
        injection h3
      apply hb
      rw [← h4]
      simp
  · exact h q hold f n hqe

theorem childName_eq (d q n : Str) (h : childName d q = some n) :
    q = pathJoin d n ∧ n ≠ [] ∧ '/' ∉ n := by
  unfold childName at h
  by_cases hp : (d ++ ['/']).isPrefixOf q = true
  · rw [if_pos hp] at h
    by_cases hn : q.drop (d.length + 1) ≠ [] ∧ '/' ∉ q.drop (d.length + 1)
    · rw [if_pos hn] at h
      injection h with h
      subst h
      obtain ⟨t, ht⟩ := (isPrefixOf_eq_true (d ++ ['/']) q).mp hp
      refine ⟨?_, hn.1, hn.2⟩
      rw [ht]
      have hdrop : ((d ++ ['/']) ++ t).drop (d.length + 1) = t := by
        have hlen : (d ++ ['/']).length = d.length + 1 := by simp
        rw [← hlen, List.drop_left]
      rw [hdrop]
      unfold pathJoin
      simp
    · rw [if_neg hn] at h
      exact absurd h (by simp)
  · rw [if_neg hp] at h
    exact absurd h (by simp)

theorem listdir_mem (fs : FS) (d : Str) (names : List Str) (n : Str)
    (h : fs.listdir d = some names) (hn : n ∈ names) :
    ∃ q, childName d q = some n ∧
      ((fs.fileAt q).isSome = true ∨ q ∈ fs.dirs) := by
  unfold FS.listdir at h
  by_cases hd : fs.isDir d = true
  · rw [if_pos hd] at h
    injection h with h
    subst h
    obtain ⟨q, hq, hcn⟩ := List.mem_filterMap.mp hn
    refine ⟨q, hcn, ?_⟩
    rcases List.mem_append.mp hq with hf | hdir
    · left
      obtain ⟨kv, hkv, hfst⟩ := List.mem_map.mp hf
      rw [Option.isSome_iff_exists]
      unfold FS.fileAt
      have : ∃ x ∈ fs.files, (fun kv => decide (kv.1 = q)) x = true :=
        ⟨kv, hkv, by simp [hfst]⟩
      obtain ⟨pr, hpr⟩ := Option.isSome_iff_exists.mp (List.find?_isSome.mpr this)
      exact ⟨pr.2, by rw [hpr]; rfl⟩
    · exact Or.inr hdir
  · rw [if_neg hd] at h
    exact absurd h (by simp)

theorem endsWith_pathJoin (a n pat : Str) (h : endsWithL n pat = true) :
    endsWithL (pathJoin a n) pat = true := by
  unfold endsWithL at *
  have h1 : pat <:+ n := by
    rw [← List.isSuffixOf_iff_suffix]
    exact h
  have h2 : pat <:+ pathJoin a n := h1.trans ⟨a ++ ['/'], by simp [pathJoin]⟩
  simpa [← List.isSuffixOf_iff_suffix] using h2

theorem splitGo_snd (p : Str) (L d i : Nat) (rest : List Nat) (fs : FS) :
    (splitGo p L d fs (i :: rest)).2
      = (splitGo p L d (fs.writeFile (chunkPathOf p L i) (.audio (min L (d - i)))) rest).2 := by
  simp only [splitGo]

theorem splitGo_fst (p : Str) (L d i : Nat) (rest : List Nat) (fs : FS) :
    (splitGo p L d fs (i :: rest)).1
      = chunkPathOf p L i
        :: (splitGo p L d (fs.writeFile (chunkPathOf p L i) (.audio (min L (d - i)))) rest).1 := by
  simp only [splitGo]

theorem splitGo_audioExtends (p : Str) (L d : Nat) :
    ∀ (starts : List Nat) (fs : FS), AudioExtends fs (splitGo p L d fs starts).2 := by
  intro starts
  induction starts with
  | nil => intro fs; exact audioExtends_rfl fs
  | cons i rest ih =>
    intro fs
    rw [splitGo_snd]
    exact audioExtends_trans (audioExtends_write fs _ _) (ih _)

theorem splitGo_chunks_audio (p : Str) (L d : Nat) :
    ∀ (starts : List Nat) (fs : FS) (c : Str), c ∈ (splitGo p L d fs starts).1 →
      ∃ m, (splitGo p L d fs starts).2.fileAt c = some (.audio m) := by
  intro starts
  induction starts with
  | nil =>
    intro fs c hc
    exact absurd hc (by simp [splitGo])
  | cons i rest ih =>
    intro fs c hc
    rw [splitGo_fst] at hc
    rw [splitGo_snd]
    rcases List.mem_cons.mp hc with h | h
    · subst h
      exact (splitGo_audioExtends p L d rest _).2.1 _ _ (fileAt_writeFile_self fs _ _)
    · exact ih _ c h

theorem retryGo_ok_of_audio (env : Env) (p : Str) (d : Nat) :
    ∀ (n : Nat) (st : St), st.fs.fileAt p = some (.audio d) →
      ∃ r st', transcribeRetryGo env p st n = .ok (r, st') ∧ st'.fs = st.fs := by
  intro n
  induction n with
  | zero =>
    intro st h
    exact ⟨none, st, rfl, rfl⟩
  | succ m ih =>
    intro st h
    cases ho : env.oracle st.calls with
    | success t =>
      exact ⟨some t, st.bump p, transcribeRetryGo_success env st p m d t h ho, rfl⟩
    | unknownValue =>
      exact ⟨none, st.bump p, transcribeRetryGo_unknown env st p m d h ho, rfl⟩
    | requestError =>
      obtain ⟨r, st', hok, hfs⟩ := ih (st.bump p) (by simpa using h)
      exact ⟨r, st', by rw [transcribeRetryGo_request env st p m d h ho]; exact hok,
        by simpa using hfs⟩

theorem chunkLoop_ok (env : Env) :
    ∀ (chunks : List Str) (st : St),
      (∀ c ∈ chunks, ∃ m, st.fs.fileAt c = some (.audio m)) →
      ∃ ts st', chunkLoop env st chunks = .ok (ts, st') ∧ st'.fs = st.fs := by
  intro chunks
  induction chunks with
  | nil =>
    intro st _
    exact ⟨[], st, rfl, rfl⟩
  | cons c rest ih =>
    intro st hall
    obtain ⟨m, hm⟩ := hall c (List.mem_cons_self c rest)
    obtain ⟨r, st1, hok1, hfs1⟩ := retryGo_ok_of_audio env c m 3 st hm
    obtain ⟨ts, st2, hok2, hfs2⟩ := ih st1 (fun x hx => by
      rw [hfs1]
      exact hall x (List.mem_cons_of_mem c hx))
    have hbody : chunkLoop env st (c :: rest)
        = (transcribe_with_retry env st c).bind (fun pr1 =>
            (chunkLoop env pr1.2 rest).bind (fun pr2 =>
              match pr1.1 with
              | some t => if t = [] then .ok (pr2.1, pr2.2) else .ok (t :: pr2.1, pr2.2)
              | none => .ok (pr2.1, pr2.2))) := rfl
    rw [hbody]
    unfold transcribe_with_retry
    rw [hok1]
    simp only [Except.bind]
    rw [hok2]
    simp only [Except.bind]
    cases r with
    | none => exact ⟨ts, st2, rfl, hfs2.trans hfs1⟩
    | some t =>
      by_cases ht : t = []
      · refine ⟨ts, st2, ?_, hfs2.trans hfs1⟩
        show (if t = [] then Except.ok (ts, st2) else Except.ok (t :: ts, st2))
          = (Except.ok (ts, st2) : Except PyErr (List Str × St))
        rw [if_pos ht]
      · refine ⟨t :: ts, st2, ?_, hfs2.trans hfs1⟩
        show (if t = [] then Except.ok (ts, st2) else Except.ok (t :: ts, st2))
          = (Except.ok (t :: ts, st2) : Except PyErr (List Str × St))
        rw [if_neg ht]

theorem transcribe_audio_ok (env : Env) (st : St) (p : Str) (d : Nat)
    (h : st.fs.fileAt p = some (.audio d)) :
    ∃ r st', transcribe_audio env st p = .ok (r, st') ∧ AudioExtends st.fs st'.fs := by
  rw [transcribe_audio_eq]
  rcases hs : standardize_audio st p with ⟨sp, st1⟩
  dsimp only
  rcases hp2 : split_audio st1 sp with ⟨chunks, st2⟩
  dsimp only
  have hs' := standardize_audio_of_audio st p d h
  rw [hs] at hs'
  injection hs' with hsp1 hst1
  have hfs1 : st1.fs = st.fs.writeFile (standardizedPathOf p) (.audio d) := by
    rw [hst1]
  have hspa : st1.fs.fileAt sp = some (.audio d) := by
    rw [hfs1, hsp1]
    exact fileAt_writeFile_self _ _ _
  have hp' := split_audio_of_audio st1 sp d 60000 hspa (by decide)
  rw [hp2] at hp'
  injection hp' with hchunks hst2
  have hfs2 : st2.fs = (splitGo sp 60000 d st1.fs (pyRange 0 d 60000)).2 := by
    rw [hst2]
  have hca : ∀ c ∈ chunks, ∃ m, st2.fs.fileAt c = some (.audio m) := by
    intro c hc
    rw [hchunks] at hc
    rw [hfs2]
    exact splitGo_chunks_audio sp 60000 d (pyRange 0 d 60000) st1.fs c hc
  obtain ⟨ts, st3, hok, hfs3⟩ := chunkLoop_ok env chunks st2 hca
  rw [hok]
  simp only [Except.bind]
  have hext : AudioExtends st.fs st3.fs := by
    rw [hfs3, hfs2]
    have e1 : AudioExtends st.fs st1.fs := by
      rw [hfs1]
      exact audioExtends_write st.fs _ d
    exact audioExtends_trans e1 (splitGo_audioExtends sp 60000 d (pyRange 0 d 60000) st1.fs)
  cases ts with
  | nil => exact ⟨none, st3, rfl, hext⟩
  | cons a b => exact ⟨some (List.intercalate [' '] (a :: b)), st3, rfl, hext⟩

theorem splitextBase_no_slash (name : Str) (h : '/' ∉ name) :
    '/' ∉ splitextBase name := by
  intro hmem
  apply h
  simp only [splitextBase] at hmem
  by_cases h1 : (name.reverse.takeWhile (fun c => c ≠ '.')).length = name.length
  · rw [if_pos h1] at hmem
    exact hmem
  · rw [if_neg h1] at hmem
    by_cases h2 : (name.take (name.length
        - (name.reverse.takeWhile (fun c => c ≠ '.')).length - 1)).any (fun c => c ≠ '.') = true
    · rw [if_pos h2] at hmem
      exact List.take_subset _ _ hmem
    · rw [if_neg h2] at hmem
      exact hmem

theorem convertLoop_inv (input out : Str) (tr : Ledger) :
    ∀ (names : List Str) (st : St), (∀ name ∈ names, '/' ∉ name) →
      (WavInv st.fs → WavInv (convertLoop st input out tr names).fs) ∧
      (NoWavDirs out st.fs → NoWavDirs out (convertLoop st input out tr names).fs) ∧
      (st.fs.isDir out = true → (convertLoop st input out tr names).fs.isDir out = true) := by
  intro names
  induction names with
  | nil =>
    intro st _
    exact ⟨id, id, id⟩
  | cons name rest ih =>
    intro st hnames
    have hname : '/' ∉ name := hnames name (List.mem_cons_self name rest)
    have hrest : ∀ x ∈ rest, '/' ∉ x := fun x hx => hnames x (List.mem_cons_of_mem name hx)
    have hbase : '/' ∉ splitextBase name := splitextBase_no_slash name hname
    have hstep : ∀ st' : St,
        (WavInv st.fs → WavInv st'.fs) →
        (NoWavDirs out st.fs → NoWavDirs out st'.fs) →
        (st.fs.isDir out = true → st'.fs.isDir out = true) →
        (WavInv st.fs → WavInv (convertLoop st' input out tr rest).fs) ∧
        (NoWavDirs out st.fs → NoWavDirs out (convertLoop st' input out tr rest).fs) ∧
        (st.fs.isDir out = true → (convertLoop st' input out tr rest).fs.isDir out = true) := by
      intro st' h1 h2 h3
      obtain ⟨g1, g2, g3⟩ := ih st' hrest
      exact ⟨fun hw => g1 (h1 hw), fun hn => g2 (h2 hn), fun hd => g3 (h3 hd)⟩
    simp only [convertLoop]
    by_cases hm : ledgerMem tr (splitextBase name) = true
    · rw [if_pos hm]
      exact ih st hrest
    · rw [if_neg hm]
      by_cases hfo : st.fs.pathExists (pathJoin out (splitextBase name)) = true
      · rw [if_neg (show ¬ (¬ st.fs.pathExists (pathJoin out (splitextBase name)) = true) from not_not_intro hfo)]
        by_cases hex : st.fs.pathExists (pathJoin (pathJoin out (splitextBase name))
            (splitextBase name ++ ".wav".data)) = true
        · rw [if_pos hex]
          exact ih st hrest
        · rw [if_neg hex]
          cases hfa : st.fs.fileAt (pathJoin input name) with
          | none => exact hstep _ id id id
          | some c =>
            cases c with
            | audio d =>
              exact hstep _ (fun hw => wavInv_write_audio _ _ d hw)
                (fun hn => noWavDirs_of_audioExtends hn (audioExtends_write _ _ d))
                (fun hd => isDir_of_audioExtends hd (audioExtends_write _ _ d))
            | text s => exact hstep _ id id id
      · rw [if_pos (show (¬ st.fs.pathExists (pathJoin out (splitextBase name)) = true) from hfo)]
        dsimp only
        by_cases hex : (st.fs.makedirs (pathJoin out (splitextBase name))).pathExists
            (pathJoin (pathJoin out (splitextBase name)) (splitextBase name ++ ".wav".data)) = true
        · rw [if_pos hex]
          exact hstep _ (fun hw => wavInv_makedirs _ _ hw)
            (fun hn => noWavDirs_makedirs out (splitextBase name) st.fs hbase hn)
            (fun hd => isDir_makedirs _ _ _ hd)
        · rw [if_neg hex]
          cases hfa : (st.fs.makedirs (pathJoin out (splitextBase name))).fileAt (pathJoin input name) with
          | none =>
            exact hstep _ (fun hw => wavInv_makedirs _ _ hw)
              (fun hn => noWavDirs_makedirs out (splitextBase name) st.fs hbase hn)
              (fun hd => isDir_makedirs _ _ _ hd)
          | some c =>
            cases c with
            | audio d =>
              refine hstep _ ?_ ?_ ?_
              · intro hw
                exact wavInv_write_audio _ _ d (wavInv_makedirs _ _ hw)
              · intro hn
                exact noWavDirs_of_audioExtends
                  (noWavDirs_makedirs out (splitextBase name) st.fs hbase hn)
                  (audioExtends_write _ _ d)
              · intro hd
                exact isDir_of_audioExtends (isDir_makedirs _ _ _ hd)
                  (audioExtends_write _ _ d)
            | text s =>
              exact hstep _ (fun hw => wavInv_makedirs _ _ hw)
                (fun hn => noWavDirs_makedirs out (splitextBase name) st.fs hbase hn)
                (fun hd => isDir_makedirs _ _ _ hd)

theorem convert_eq_of_dir (st : St) (input out : Str) (tr : Ledger) (names : List Str)
    (hsome : st.fs.listdir input = some names) (hpe : st.fs.pathExists input = true) :
    convert_aac_to_wav st input out tr
      = (if (names.filter (fun n => endsWithL n ".aac".data)).isEmpty = true
         then Except.ok st
         else Except.ok (convertLoop st input out tr
           (names.filter (fun n => endsWithL n ".aac".data)))) := by
  unfold convert_aac_to_wav
  rw [if_neg (by simp [hpe]), hsome]

theorem convert_ok (st : St) (input out : Str) (tr : Ledger)
    (hin : st.fs.fileAt input = none ∨ st.fs.isDir input = true) :
    ∃ st1, convert_aac_to_wav st input out tr = .ok st1 ∧
      (WavInv st.fs → WavInv st1.fs) ∧
      (NoWavDirs out st.fs → NoWavDirs out st1.fs) ∧
      (st.fs.isDir out = true → st1.fs.isDir out = true) := by
  by_cases hex : st.fs.pathExists input = true
  · have hdir : st.fs.isDir input = true := by
      rcases hin with h | h
      · unfold FS.pathExists at hex
        rw [h] at hex
        simpa using hex
      · exact h
    have hld : ∃ names, st.fs.listdir input = some names := by
      unfold FS.listdir
      rw [if_pos hdir]
      exact ⟨_, rfl⟩
    obtain ⟨names, hsome⟩ := hld
    rw [convert_eq_of_dir st input out tr names hsome hex]
    by_cases hisE : (names.filter (fun n => endsWithL n ".aac".data)).isEmpty = true
    · rw [if_pos hisE]
      exact ⟨st, rfl, id, id, id⟩
    · rw [if_neg hisE]
      have hnames : ∀ name ∈ names.filter (fun n => endsWithL n ".aac".data), '/' ∉ name := by
        intro n hn
        obtain ⟨q, hcn, _⟩ := listdir_mem st.fs input names n hsome (List.mem_of_mem_filter hn)
        exact (childName_eq input q n hcn).2.2
      obtain ⟨g1, g2, g3⟩ := convertLoop_inv input out tr _ st hnames
      exact ⟨_, rfl, g1, g2, g3⟩
  · have heq : convert_aac_to_wav st input out tr = .ok st := by
      unfold convert_aac_to_wav
      rw [if_pos (by simp [hex])]
    rw [heq]
    exact ⟨st, rfl, id, id, id⟩

theorem wavLoop_cons_not_mem (env : Env) (st : St) (tr : Ledger) (folderPath name : Str)
    (rest : List Str) (hm : ¬ ledgerMem tr (splitextBase name) = true) :
    wavLoop env st tr folderPath (name :: rest)
      = (transcribe_audio env { st with events := Event.transcribeAttempt (splitextBase name) :: st.events } (pathJoin folderPath name)).bind
          (fun x => wavLoop env x.2 (ledgerInsert tr (splitextBase name) x.1) folderPath rest) := by
  simp only [wavLoop]
  rw [if_neg hm]
  rfl

theorem wavLoop_ok (env : Env) (folderPath : Str) :
    ∀ (wavs : List Str) (st : St) (tr : Ledger),
      (∀ name ∈ wavs, ∃ m, st.fs.fileAt (pathJoin folderPath name) = some (.audio m)) →
      ∃ pr, wavLoop env st tr folderPath wavs = .ok pr ∧ AudioExtends st.fs pr.2.fs := by
  intro wavs
  induction wavs with
  | nil =>
    intro st tr _
    exact ⟨(tr, st), rfl, audioExtends_rfl st.fs⟩
  | cons name rest ih =>
    intro st tr hall
    by_cases hm : ledgerMem tr (splitextBase name) = true
    · have hbody : wavLoop env st tr folderPath (name :: rest)
          = wavLoop env st tr folderPath rest := by
        simp only [wavLoop]
        rw [if_pos hm]
      rw [hbody]
      exact ih st tr (fun x hx => hall x (List.mem_cons_of_mem name hx))
    · rw [wavLoop_cons_not_mem env st tr folderPath name rest hm]
      obtain ⟨m, hma⟩ := hall name (List.mem_cons_self name rest)
      obtain ⟨r, st2, hok, hext⟩ := transcribe_audio_ok env
        { st with events := Event.transcribeAttempt (splitextBase name) :: st.events }
        (pathJoin folderPath name) m hma
      rw [hok]
      simp only [Except.bind]
      have hext' : AudioExtends st.fs st2.fs := hext
      obtain ⟨pr, hok2, hext2⟩ := ih st2 (ledgerInsert tr (splitextBase name) r)
        (fun x hx => by
          obtain ⟨mx, hmx⟩ := hall x (List.mem_cons_of_mem name hx)
          exact hext'.2.1 _ mx hmx)
      exact ⟨pr, hok2, audioExtends_trans hext' hext2⟩

theorem folderLoop_cons_dir (env : Env) (st : St) (tr : Ledger) (out fname : Str)
    (rest : List Str) (hd : st.fs.isDir (pathJoin out fname) = true) :
    folderLoop env st tr out (fname :: rest)
      = (wavLoop env st tr (pathJoin out fname)
          (((st.fs.listdir (pathJoin out fname)).getD []).filter (fun n => endsWithL n ".wav".data))).bind
          (fun x => folderLoop env x.2 x.1 out rest) := by
  simp only [folderLoop]
  rw [if_neg (by simp [hd])]
  rfl

theorem folderLoop_ok (env : Env) (out : Str) :
    ∀ (fnames : List Str) (st : St) (tr : Ledger),
      WavInv st.fs → NoWavDirs out st.fs →
      ∃ pr, folderLoop env st tr out fnames = .ok pr ∧ AudioExtends st.fs pr.2.fs := by
  intro fnames
  induction fnames with
  | nil =>
    intro st tr _ _
    exact ⟨(tr, st), rfl, audioExtends_rfl st.fs⟩
  | cons fname rest ih =>
    intro st tr hw hn
    by_cases hd : st.fs.isDir (pathJoin out fname) = true
    · rw [folderLoop_cons_dir env st tr out fname rest hd]
      have hall : ∀ name ∈ ((st.fs.listdir (pathJoin out fname)).getD []).filter
          (fun n => endsWithL n ".wav".data),
          ∃ m, st.fs.fileAt (pathJoin (pathJoin out fname) name) = some (.audio m) := by
        intro name hnm
        have hwav : endsWithL name ".wav".data = true := by
          simpa using (List.mem_filter.mp hnm).2
        have hmem0 : name ∈ (st.fs.listdir (pathJoin out fname)).getD [] :=
          List.mem_of_mem_filter hnm
        have hsome : ∃ ns, st.fs.listdir (pathJoin out fname) = some ns := by
          unfold FS.listdir
          rw [if_pos hd]
          exact ⟨_, rfl⟩
        obtain ⟨ns, hns⟩ := hsome
        rw [hns] at hmem0
        simp only [Option.getD_some] at hmem0
        obtain ⟨q, hcn, hq⟩ := listdir_mem st.fs (pathJoin out fname) ns name hns hmem0
        obtain ⟨hqe, hne, hnosl⟩ := childName_eq (pathJoin out fname) q name hcn
        rcases hq with hfile | hdirq
        · obtain ⟨dta, hdta⟩ := Option.isSome_iff_exists.mp hfile
          have hqwav : endsWithL q ".wav".data = true := by
            rw [hqe]
            exact endsWith_pathJoin _ _ _ hwav
          obtain ⟨mq, hmq⟩ := hw q dta hdta hqwav
          subst hmq
          exact ⟨mq, by rw [← hqe]; exact hdta⟩
        · exact absurd (hn q hdirq fname name hqe) (by simp [hwav])
      obtain ⟨pr1, hok1, hext1⟩ := wavLoop_ok env (pathJoin out fname) _ st tr hall
      rw [hok1]
      simp only [Except.bind]
      obtain ⟨pr2, hok2, hext2⟩ := ih pr1.2 pr1.1 (wavInv_of_audioExtends hw hext1)
        (noWavDirs_of_audioExtends hn hext1)
      exact ⟨pr2, hok2, audioExtends_trans hext1 hext2⟩
    · have hbody : folderLoop env st tr out (fname :: rest)
          = folderLoop env st tr out rest := by
        simp only [folderLoop]
        rw [if_pos (by simp [hd])]
      rw [hbody]
      exact ih st tr hw hn

theorem processDict_ok (env : Env) (st : St) (input out lp : Str) (tr : Ledger)
    (hin : st.fs.fileAt input = none ∨ st.fs.isDir input = true)
    (hout : st.fs.isDir out = true)
    (hw : WavInv st.fs) (hn : NoWavDirs out st.fs) :
    ∃ st', processDict env st input out lp tr = .ok st' := by
  simp only [processDict, Bind.bind]
  obtain ⟨st1, hc, g1, g2, g3⟩ := convert_ok st input out tr hin
  rw [hc]
  simp only [Except.bind]
  have hd1 : st1.fs.isDir out = true := g3 hout
  have hsome : ∃ ns, st1.fs.listdir out = some ns := by
    unfold FS.listdir
    rw [if_pos hd1]
    exact ⟨_, rfl⟩
  obtain ⟨ns, hns⟩ := hsome
  rw [hns]
  obtain ⟨pr, hok, _⟩ := folderLoop_ok env out ns st1 tr (g1 hw) (g2 hn)
  simp only [Option.some.injEq]
  rw [hok]
  exact ⟨_, rfl⟩

/-- The runs the amended C3 claim covers: the loaded ledger value is a
mapping, or the defaulted empty one (missing or unparsable file). -/
def ledgerShaped : LoadOutcome → Bool
  | .dict _ => true
  | .empty => true
  | .nonDict _ => false

theorem processFolder_ok (env : Env) (st : St) (input out lp : Str)
    (hin : st.fs.fileAt input = none ∨ st.fs.isDir input = true)
    (hout : st.fs.isDir out = true)
    (hw : WavInv st.fs) (hn : NoWavDirs out st.fs)
    (hld : ledgerShaped (loadOutcome st.fs lp) = true) :
    ∃ st', process_folder env st input out lp = .ok st' := by
  unfold process_folder
  cases hlo : loadOutcome st.fs lp with
  | dict m => exact processDict_ok env st input out lp m hin hout hw hn
  | empty => exact processDict_ok env st input out lp [] hin hout hw hn
  | nonDict v =>
    rw [hlo] at hld
    exact absurd hld (by simp [ledgerShaped])

/-- **C3 (counterexample)**: `process_folder` is not exception-safe for every
input: with an empty filesystem the unguarded `os.listdir(output_folder)`
call (main.py:149) raises an uncaught `FileNotFoundError`, modelled here as
the run returning an uncaught `listdirError` instead of completing. -/
theorem claim_C3_counterexample :
    process_folder envW ⟨⟨[], []⟩, 0, []⟩ ['i'] ['o'] ['l']
      = .error (.listdirError ['o']) := by decide

/-- **C3 (amended)**: `process_folder` completes without an uncaught
exception whenever (a) the input path is not a regular non-directory file,
(b) the output path is an existing directory, (c) every file whose path ends
in ".wav" holds decodable audio, (d) no directory nested two or more levels
below the output directory is named like a wav file, and (e) the ledger
file is absent, unparsable, or holds a JSON object (a mapping).  Outside
these conditions the unguarded `os.listdir(output_folder)` call, the
unguarded `sr.AudioFile(...)` open, and the `TypeError` from using a valid
non-object `json.load` result as a mapping (main.py:48, 159, 165) can raise
and propagate out of `process_folder`. -/
theorem claim_C3_amended_no_uncaught (env : Env) (st : St) (input out lp : Str)
    (hin : st.fs.fileAt input = none ∨ st.fs.isDir input = true)
    (hout : st.fs.isDir out = true)
    (hw : WavInv st.fs) (hn : NoWavDirs out st.fs)
    (hld : ledgerShaped (loadOutcome st.fs lp) = true) :
    ∃ st', process_folder env st input out lp = .ok st' :=
  processFolder_ok env st input out lp hin hout hw hn hld

def stW3 : St := ⟨⟨[], [['o']]⟩, 0, []⟩

theorem claim_C3_amended_witness :
    (stW3.fs.fileAt ['i'] = none ∨ stW3.fs.isDir ['i'] = true) ∧
    stW3.fs.isDir ['o'] = true ∧
    WavInv stW3.fs ∧
    NoWavDirs ['o'] stW3.fs ∧
    ledgerShaped (loadOutcome stW3.fs ['l']) = true ∧
    ∃ st', process_folder envW stW3 ['i'] ['o'] ['l'] = .ok st' := by
  have h1 : stW3.fs.fileAt ['i'] = none ∨ stW3.fs.isDir ['i'] = true := Or.inl (by decide)
  have h2 : stW3.fs.isDir ['o'] = true := by decide
  have h3 : WavInv stW3.fs := by
    intro p d hp _
    simp [stW3, FS.fileAt] at hp
  have h4 : NoWavDirs ['o'] stW3.fs := by
    intro q hq f n hqe
    have hq' : q = ['o'] := by simpa [stW3] using hq
    exfalso
    rw [hq'] at hqe
    have hl := congrArg List.length hqe
    simp [pathJoin] at hl
  have h5 : ledgerShaped (loadOutcome stW3.fs ['l']) = true := by decide
  exact ⟨h1, h2, h3, h4, h5,
    claim_C3_amended_no_uncaught envW stW3 ['i'] ['o'] ['l'] h1 h2 h3 h4 h5⟩

end AudioPipeline
